import Mathlib

/-!
Verification of the circular-reference visualization core (data loader,
graph builder, cycle detector, filter engine) against its specification.

The JavaScript sources are shallowly embedded: strings are `String`/`List Char`,
JS `Map`s are association lists with replace-on-set semantics, JS `Set`s are
duplicate-free lists, and in-place mutation is explicit state passing.
-/

namespace FypScraper

/-! ## Character classes (ASCII semantics of the JS regexes involved)

`\w` is `[A-Za-z0-9_]`, `\d` is `[0-9]`, `\s` is matched here on its ASCII
subset (space, tab, newline, carriage return, vertical tab, form feed). -/

def isWordChar (c : Char) : Bool := c.isAlpha || c.isDigit || c == '_'

def isJsSpace (c : Char) : Bool :=
  c == ' ' || c == '\t' || c == '\n' || c == '\r' || c == '\x0b' || c == '\x0c'

def headIsDigit : List Char → Bool
  | d :: _ => d.isDigit
  | [] => false

/-! ## `normalizeTitle` (data-loader.js, lines 116-131)

```js
function normalizeTitle(title) {
    if (!title) return '';
    let normalized = title.toLowerCase();
    normalized = normalized.replace(/\b0+(\d)/g, '$1');
    normalized = normalized.replace(/no\.\s*/gi, 'no ');
    normalized = normalized.replace(/\s+/g, ' ');
    return normalized.trim();
}
```

Each `replace` with a global regex is embedded as a left-to-right scan that
rewrites every non-overlapping match and resumes after the replaced text,
exactly as the JS regex engine does. -/

/-- Scan for `/\b0+(\d)/g` replaced by `$1`.  The flag `b` records whether the
current position is at a word boundary (start of string, or previous source
character not in `\w`).  A zero at a boundary that is followed by another digit
is exactly a position where the regex consumes that zero (greedy `0+` with a
`(\d)` capture, backtracking so that a final zero of an all-zero run can serve
as the captured digit); dropping those zeros one at a time reproduces the
global replacement. -/
def stripZerosAux : Bool → List Char → List Char
  | _, [] => []
  | b, c :: rest =>
    if b && c == '0' && headIsDigit rest then
      stripZerosAux true rest
    else
      c :: stripZerosAux (!(isWordChar c)) rest

/-- The window test of `/no\.\s*/i` at the current position (first three
characters; `\s*` is handled by the skip flag of `fixNoDotA`). -/
def noDotWin (c1 c2 c3 : Char) : Bool :=
  c1.toLower == 'n' && c2.toLower == 'o' && c3 == '.'

/-- Scan for `/no\.\s*/gi` replaced by `"no "`.  The flag records that the
previous characters closed a match, so following whitespace belongs to its
`\s*` part and is consumed. -/
def fixNoDotA : Bool → List Char → List Char
  | _, [] => []
  | skip, c1 :: c2 :: c3 :: rest' =>
    if skip && isJsSpace c1 then fixNoDotA true (c2 :: c3 :: rest')
    else if noDotWin c1 c2 c3 then 'n' :: 'o' :: ' ' :: fixNoDotA true rest'
    else c1 :: fixNoDotA false (c2 :: c3 :: rest')
  | skip, c1 :: rest =>
    if skip && isJsSpace c1 then fixNoDotA true rest
    else c1 :: rest

def fixNoDot (l : List Char) : List Char := fixNoDotA false l

/-- Scan for `/\s+/g` replaced by a single space.  The flag records that the
previous source character was whitespace already represented by an emitted
space. -/
def collapseWsA : Bool → List Char → List Char
  | _, [] => []
  | inWs, c :: rest =>
    if isJsSpace c then
      if inWs then collapseWsA true rest else ' ' :: collapseWsA true rest
    else c :: collapseWsA false rest

def collapseWs (l : List Char) : List Char := collapseWsA false l

/-- `String.prototype.trim` on the character-list level. -/
def jsTrim (l : List Char) : List Char :=
  ((l.dropWhile isJsSpace).reverse.dropWhile isJsSpace).reverse

/-- `normalizeTitle` on the character-list level. -/
def normalizeTitleL (t : List Char) : List Char :=
  if t.isEmpty then []
  else jsTrim (collapseWs (fixNoDot (stripZerosAux true (t.map Char.toLower))))

/-- `normalizeTitle` (data-loader.js): lowercase, strip leading zeros from
numbers, standardize "no." variants, collapse whitespace, trim. -/
def normalizeTitle (s : String) : String := ⟨normalizeTitleL s.data⟩

example : normalizeTitle "ABC No. 01" = "abc no 1" := by decide
example : normalizeTitle "ABC No. 1" = "abc no 1" := by decide
example : normalizeTitle "  BPRD  Circular   No.07 " = "bprd circular no 7" := by decide
example : normalizeTitle "BSD 0012 of 000" = "bsd 12 of 0" := by decide

/-! ## Graph builder (graph-builder.js)

A document node as assembled by `processCircular` / `extractCircularsFromCache`
/ the pdf and web branches of `extractReferences`.  The `content` blocks are
opaque; only their presence matters to the builder, so they are kept as an
opaque list of strings.  `year` is `none` where the JS value is `null`; the JS
truthiness test `year && ...` additionally treats the number 0 as absent,
which `yearTruthy` reproduces. -/
structure BNode where
  id : String
  label : String
  title : String
  date : String
  year : Option Nat
  department : String
  url : String
  content : List String
  type : String
  refCount : Nat
  fromCache : Bool
deriving Repr, DecidableEq

/-- JS truthiness of the `year` field (`null`/`undefined` and `0` are falsy). -/
def yearTruthy : Option Nat → Bool
  | none => false
  | some y => y != 0

/-- The merge performed by `deduplicateNodes` (graph-builder.js, lines 245-257)
when a node with an already-seen id arrives.  `existing` is the stored record,
`node` the new one:

```js
if (!node.fromCache || existingNode.fromCache) {
    if (node.title && !existingNode.title) existingNode.title = node.title;
    if (node.date && !existingNode.date) existingNode.date = node.date;
    if (node.year && !existingNode.year) existingNode.year = node.year;
    if (node.url && !existingNode.url) existingNode.url = node.url;
    if (node.content && node.content.length > 0 && existingNode.content.length === 0)
        existingNode.content = node.content;
    if (!existingNode.fromCache) existingNode.fromCache = node.fromCache;
}
``` -/
def mergeNode (existing node : BNode) : BNode :=
  if !node.fromCache || existing.fromCache then
    { existing with
      title := if node.title != "" && existing.title == "" then node.title else existing.title
      date := if node.date != "" && existing.date == "" then node.date else existing.date
      year := if yearTruthy node.year && !(yearTruthy existing.year) then node.year else existing.year
      url := if node.url != "" && existing.url == "" then node.url else existing.url
      content := if node.content.length > 0 && existing.content.length == 0 then node.content
                 else existing.content
      fromCache := if !existing.fromCache then node.fromCache else existing.fromCache }
  else existing

/-- Replace the value stored under `id` in an association list, keeping its
position (the JS `Map` entry is mutated in place). -/
def updateNode : List (String × BNode) → String → BNode → List (String × BNode)
  | [], _, _ => []
  | (k, v) :: rest, id, n => if k == id then (k, n) :: rest else (k, v) :: updateNode rest id n

/-- `deduplicateNodes` (graph-builder.js, lines 239-264): fold the extracted
node list into a `Map` keyed by id, merging on collision. -/
def deduplicateNodes (nodes : List BNode) : List (String × BNode) :=
  nodes.foldl
    (fun m node =>
      match m.lookup node.id with
      | some existing => updateNode m node.id (mergeNode existing node)
      | none => m ++ [(node.id, node)])
    []

/-- `Map.prototype.set` on an association list: replace the value if the key
is present (keeping its position), append otherwise. -/
def setKV : List (String × String) → String → String → List (String × String)
  | [], k, v => [(k, v)]
  | (k', v') :: rest, k, v =>
    if k' == k then (k, v) :: rest else (k', v') :: setKV rest k v

/-- The normalized-title lookup table `nodeIdToNormalizedId`.  Both
`processCircular` (lines 91-93) and `extractCircularsFromCache` (lines 223-225)
register every discovered document node with
`nodeIdToNormalizedId.set(normalizeTitle(nodeId), nodeId)`; `registerIds`
folds those registrations in discovery order. -/
def registerIds (ids : List String) : List (String × String) :=
  ids.foldl (fun m id => setKV m (normalizeTitle id) id) []

/-- A raw reference edge as pushed by `extractReferences`. -/
structure BEdge where
  source : String
  target : String
  refType : String
  refTitle : String
  refUrl : String
deriving Repr, DecidableEq

/-- A validated edge (after `validateEdges` resolved the target and assigned
the edge id). -/
structure VEdge where
  id : String
  source : String
  target : String
  refType : String
  refTitle : String
  refUrl : String
deriving Repr, DecidableEq

/-- Whether the node map has an entry for `id` (`nodeMap.has(id)`). -/
def nmHas (nm : List (String × BNode)) (id : String) : Bool :=
  (nm.lookup id).isSome

/-- Target resolution in `validateEdges` (graph-builder.js, lines 277-283):
an edge target that is not a literal node id is looked up in the
normalized-title table. -/
def resolveTarget (nm : List (String × BNode)) (reg : List (String × String))
    (t : String) : String :=
  if !nmHas nm t then
    match reg.lookup t with
    | some v => v
    | none => t
  else t

/-- Whether an edge survives validation: both its source and its resolved
target must be present in the node map. -/
def edgeResolvable (nm : List (String × BNode)) (reg : List (String × String))
    (e : BEdge) : Bool :=
  nmHas nm e.source && nmHas nm (resolveTarget nm reg e.target)

def mkVEdge (e : BEdge) (target : String) (idx : Nat) : VEdge :=
  { id := "edge_" ++ e.source ++ "_" ++ target ++ "_" ++ toString idx
    source := e.source
    target := target
    refType := e.refType
    refTitle := e.refTitle
    refUrl := e.refUrl }

/-- `validateEdges` (graph-builder.js, lines 272-302): accumulate the valid
edges (ids indexed by position in the accumulator) and count the orphans. -/
def validateEdgesAux (nm : List (String × BNode)) (reg : List (String × String)) :
    List BEdge → List VEdge → Nat → List VEdge × Nat
  | [], acc, orphaned => (acc, orphaned)
  | e :: rest, acc, orphaned =>
    let t := resolveTarget nm reg e.target
    if nmHas nm e.source && nmHas nm t then
      validateEdgesAux nm reg rest (acc ++ [mkVEdge e t acc.length]) orphaned
    else
      validateEdgesAux nm reg rest acc (orphaned + 1)

def validateEdges (edges : List BEdge) (nm : List (String × BNode))
    (reg : List (String × String)) : List VEdge × Nat :=
  validateEdgesAux nm reg edges [] 0

/-- One step of `calculateReferenceCounts` (graph-builder.js, lines 309-317):
increment the reference count of the edge's target node, if present
(`nodeMap.get(edge.target)` and an in-place `refCount` update). -/
def bumpRef : List (String × BNode) → String → List (String × BNode)
  | [], _ => []
  | (k, v) :: rest, tid =>
    if k == tid then (k, { v with refCount := v.refCount + 1 }) :: rest
    else (k, v) :: bumpRef rest tid

def calculateReferenceCounts (nm : List (String × BNode)) (edges : List VEdge) :
    List (String × BNode) :=
  edges.foldl (fun m e => bumpRef m e.target) nm

/-- The node-side of `buildGraph` after validation: deduplicate, validate the
edges against the deduplicated map, then recompute reference counts from the
validated edge set. -/
def buildNodeMap (nodes : List BNode) (edges : List BEdge)
    (reg : List (String × String)) : List (String × BNode) :=
  let nm := deduplicateNodes nodes
  calculateReferenceCounts nm (validateEdges edges nm reg).1

/-! ## Cycle detector (cycle-detector module)

The graph handed to `detectCycles` consists of node ids and finished edges
(`edge.data`); only `id`, `source`, `target` and `refType` of an edge matter
here. -/

structure GEdge where
  id : String
  source : String
  target : String
  refType : String
deriving Repr, DecidableEq

structure CGraph where
  nodes : List String
  edges : List GEdge
deriving Repr, DecidableEq

/-- A discovered cycle: its node sequence, edge-id sequence, and length. -/
structure Cyc where
  nodes : List String
  edges : List String
  length : Nat
deriving Repr, DecidableEq

/-- `Set.prototype.add`: append if absent. -/
def addSet (s : List String) (x : String) : List String :=
  if s.contains x then s else s ++ [x]

/-- Append a neighbor entry to the adjacency list stored under `k`. -/
def adjAppend : List (String × List (String × String)) → String → String × String →
    List (String × List (String × String))
  | [], _, _ => []
  | (k', l) :: rest, k, p =>
    if k' == k then (k', l ++ [p]) :: rest else (k', l) :: adjAppend rest k p

def adjLookup (adj : List (String × List (String × String))) (k : String) :
    List (String × String) :=
  (adj.lookup k).getD []

def adjHas (adj : List (String × List (String × String))) (k : String) : Bool :=
  (adj.lookup k).isSome

/-- `Map.set` with an empty neighbor list (initialization loop). -/
def adjInit0 : List (String × List (String × String)) → String →
    List (String × List (String × String))
  | [], k => [(k, [])]
  | (k', l) :: rest, k =>
    if k' == k then (k, []) :: rest else (k', l) :: adjInit0 rest k

/-- `buildAdjacencyList` (cycle detector, lines 11-35): every node gets an
empty neighbor list; every edge of refType `"circular"` whose source is a
known node contributes `{target, edgeId}` in edge order. -/
def buildAdjacencyList (g : CGraph) : List (String × List (String × String)) :=
  g.edges.foldl
    (fun m e =>
      if e.refType == "circular" then
        if adjHas m e.source then adjAppend m e.source (e.target, e.id) else m
      else m)
    (g.nodes.foldl adjInit0 [])

/-- The mutable state shared by the nested `dfs` closure: the global visited
set, the recursion stack, and the three accumulators. -/
structure DfsState where
  visited : List String
  recStack : List String
  cycles : List Cyc
  nodesInCycles : List String
  edgesInCycles : List String
deriving Repr, DecidableEq

/-- Cycle recording (cycle detector, lines 69-95): slice the path from the
first occurrence of the back-edge target, append the closing edge. -/
def recordCycle (s : DfsState) (path edgePath : List String)
    (target edgeId : String) : DfsState :=
  match path.findIdx? (fun x => x == target) with
  | some i =>
    let cyc := path.drop i
    let cycEdges := edgePath.drop i ++ [edgeId]
    { s with
      cycles := s.cycles ++ [⟨cyc, cycEdges, cyc.length⟩]
      nodesInCycles := cyc.foldl addSet s.nodesInCycles
      edgesInCycles := cycEdges.foldl addSet s.edgesInCycles }
  | none => s

/-- The `for (const neighbor of neighbors)` loop inside `dfs` (cycle
detector, lines 65-101), parameterized by the recursive-descent continuation
`visitF` so that the loop itself is plain structural recursion over the
neighbor list: on a neighbor already on the recursion stack a cycle is
recorded; an unvisited neighbor is descended into; a visited off-stack
neighbor is skipped. -/
def dfsNeighbors
    (visitF : String → List String → List String → DfsState → DfsState) :
    List (String × String) → String → List String → List String →
    DfsState → DfsState
  | [], _, _, _, s => s
  | (target, edgeId) :: rest, nodeId, path1, edgePath, s =>
    if s.recStack.contains target then
      dfsNeighbors visitF rest nodeId path1 edgePath
        (recordCycle s path1 edgePath target edgeId)
    else if s.visited.contains target then
      dfsNeighbors visitF rest nodeId path1 edgePath s
    else
      dfsNeighbors visitF rest nodeId path1 edgePath
        (visitF target path1 (edgePath ++ [edgeId]) s)

/-- The recursive `dfs(nodeId, path, edgePath)` (cycle detector, lines
58-104): mark the node visited and on the stack, push it on the (copied)
path, run the neighbor loop, pop the stack.  `fuel` only bounds the recursion
depth: every nested visit is on a node not yet in `visited` and permanently
adds it, and all visited ids are drawn from the graph's nodes and edge
targets, so a depth of `g.nodes.length + g.edges.length + 1` is never
exhausted. -/
def dfsVisit (adj : List (String × List (String × String))) :
    Nat → String → List String → List String → DfsState → DfsState
  | 0, _, _, _, s => s
  | fuel + 1, nodeId, path, edgePath, s =>
    let s1 := { s with visited := addSet s.visited nodeId
                       recStack := addSet s.recStack nodeId }
    let s2 := dfsNeighbors (fun t p e st => dfsVisit adj fuel t p e st)
                (adjLookup adj nodeId) nodeId (path ++ [nodeId]) edgePath s1
    { s2 with recStack := s2.recStack.filter (fun x => x != nodeId) }

structure DetectResult where
  cycles : List Cyc
  cycleCount : Nat
  nodesInCycles : List String
  edgesInCycles : List String
deriving Repr, DecidableEq

/-- `detectCycles` (cycle detector, lines 42-127): DFS from every node not
yet globally visited. -/
def detectCycles (g : CGraph) : DetectResult :=
  let adj := buildAdjacencyList g
  let fuel := g.nodes.length + g.edges.length + 1
  let s := g.nodes.foldl
    (fun s id => if s.visited.contains id then s else dfsVisit adj fuel id [] [] s)
    ⟨[], [], [], [], []⟩
  ⟨s.cycles, s.cycles.length, s.nodesInCycles, s.edgesInCycles⟩

/-- Whether `eid` is the id of a circular-type edge from `a` to `b`. -/
def edgeOkB (es : List GEdge) (eid a b : String) : Bool :=
  es.any (fun e => e.id == eid && e.source == a && e.target == b && e.refType == "circular")

/-- `chainB es ns eids`: `ns` is a path whose consecutive nodes are linked by
the circular-type edges `eids` (so `eids` is one shorter than `ns`). -/
def chainB (es : List GEdge) : List String → List String → Bool
  | [_], [] => true
  | a :: b :: rest, eid :: eids => edgeOkB es eid a b && chainB es (b :: rest) eids
  | _, _ => false

/-- A genuine closed path of circular-type edges: nonempty node sequence, a
chain along all but the closing edge, and a closing circular edge from the
last node back to the first. -/
def closedPathB (es : List GEdge) (c : Cyc) : Bool :=
  match c.nodes with
  | [] => false
  | a :: rest =>
    match c.edges.getLast? with
    | none => false
    | some lastE =>
      chainB es (a :: rest) c.edges.dropLast
        && edgeOkB es lastE ((a :: rest).getLastD a) a

/-! ## Filter engine (filters.js) -/

/-- The node data consulted by `applyFilters`. -/
structure FNode where
  id : String
  title : String
  year : Option Nat
  department : String
  inCycle : Bool
deriving Repr, DecidableEq

/-- A displayed edge; `source`/`target` are node ids. -/
structure FEdge where
  source : String
  target : String
deriving Repr, DecidableEq

/-- The `activeFilters` record. -/
structure FilterState where
  departments : List String
  yearMin : Nat
  yearMax : Nat
  searchQuery : String
  showCyclesOnly : Bool
  showLabels : Bool
  showIsolated : Bool
deriving Repr, DecidableEq

/-- Lowercase a string character-wise (`String.prototype.toLowerCase`,
ASCII semantics). -/
def lowerStr (s : String) : String := ⟨s.data.map Char.toLower⟩

/-- `String.prototype.includes`: substring containment. -/
def strContains (hay needle : String) : Bool := decide (needle.data <:+: hay.data)

/-- `node.degree()` of the displayed graph: the number of edge endpoints at
the node (a self-loop counts twice). -/
def nodeDegree (edges : List FEdge) (id : String) : Nat :=
  edges.countP (fun e => e.source == id) + edges.countP (fun e => e.target == id)

/-- The year exclusion test of `applyFilters` (filters.js, lines 205-210):
`year && (year < yearMin || year > yearMax)`. -/
def yearOut (st : FilterState) (year : Option Nat) : Bool :=
  match year with
  | none => false
  | some y => y != 0 && (decide (y < st.yearMin) || decide (y > st.yearMax))

/-- The search match of `applyFilters` (filters.js, lines 214-218): the
lowercased id or title contains the (already lowercased) query. -/
def searchMatch (st : FilterState) (n : FNode) : Bool :=
  strContains (lowerStr n.id) st.searchQuery || strContains (lowerStr n.title) st.searchQuery

/-- Per-node visibility classes. -/
structure NodeVis where
  hidden : Bool
  dimmed : Bool
deriving Repr, DecidableEq

/-- The per-node outcome of one `applyFilters` run (filters.js, lines
189-249), with the passes applied in source order: department, year, search
dimming (only nodes not hidden at that point are dimmed), cycles-only,
isolated. -/
def nodeVis (st : FilterState) (edges : List FEdge) (n : FNode) : NodeVis :=
  let h1 := !(st.departments.contains n.department)
  let h2 := h1 || yearOut st n.year
  let dimmed := st.searchQuery != "" && !(searchMatch st n) && !h2
  let h3 := h2 || (st.showCyclesOnly && !n.inCycle)
  let h4 := h3 || (!st.showIsolated && nodeDegree edges n.id == 0)
  ⟨h4, dimmed⟩

/-- Look up the computed visibility of the node with the given id (the
cytoscape `edge.source()` / `edge.target()` elements). -/
def hiddenOf (nv : List (FNode × NodeVis)) (id : String) : Bool :=
  match nv.find? (fun p => p.1.id == id) with
  | some p => p.2.hidden
  | none => false

/-- `applyFilters` (filters.js, lines 189-270) over the whole graph: visibility
classes for every node, then every edge is hidden iff its source or target
node is hidden (lines 252-259). -/
def applyFilters (st : FilterState) (nodes : List FNode) (edges : List FEdge) :
    List (FNode × NodeVis) × List (FEdge × Bool) :=
  let nv := nodes.map (fun n => (n, nodeVis st edges n))
  (nv, edges.map (fun e => (e, hiddenOf nv e.source || hiddenOf nv e.target)))

/-- A JSON-ish value of the persisted filter-state record. -/
inductive PVal where
  | str : String → PVal
  | num : Nat → PVal
  | bool : Bool → PVal
  | strList : List String → PVal
deriving Repr, DecidableEq

/-- `saveFilterState` (filters.js, lines 334-345): the object written to
`localStorage` under the key `filterState`, with its fields in source order. -/
def saveFilterState (st : FilterState) : List (String × PVal) :=
  [("departments", PVal.strList st.departments),
   ("yearMin", PVal.num st.yearMin),
   ("yearMax", PVal.num st.yearMax),
   ("showCyclesOnly", PVal.bool st.showCyclesOnly),
   ("showLabels", PVal.bool st.showLabels),
   ("showIsolated", PVal.bool st.showIsolated)]

/-- `onSearchInput` (filters.js, lines 161-164): lowercase and trim the input,
store it, re-apply the filters.  It returns the new state together with the
record written to persistent storage by this handler: none, because
`onSearchInput` does not call `saveFilterState` (unlike the department, year
and display-option handlers). -/
def onSearchInput (st : FilterState) (value : String) :
    FilterState × Option (List (String × PVal)) :=
  ({ st with searchQuery := ⟨jsTrim (lowerStr value).data⟩ }, none)

/-- `onDisplayOptionChange` for `showCyclesOnly` (filters.js, lines 180-184):
set the flag, re-apply, save. -/
def onShowCyclesOnlyChange (st : FilterState) (checked : Bool) :
    FilterState × Option (List (String × PVal)) :=
  let st' := { st with showCyclesOnly := checked }
  (st', some (saveFilterState st'))

/-! ## Helper lemmas on the association-list embeddings -/

theorem lookup_setKV_self (m : List (String × String)) (k v : String) :
    (setKV m k v).lookup k = some v := by
  induction m with
  | nil => simp [setKV, List.lookup]
  | cons p rest ih =>
    obtain ⟨k', v'⟩ := p
    by_cases h : k' = k
    · simp [setKV, h, List.lookup]
    · have hb : (k' == k) = false := by simp [h]
      have hb2 : (k == k') = false := by
        simp only [beq_eq_false_iff_ne, ne_eq]
        exact fun e => h e.symm
      simp [setKV, hb, List.lookup, hb2, ih]

theorem lookup_setKV_ne (m : List (String × String)) (k k' v : String)
    (h : k' ≠ k) : (setKV m k' v).lookup k = m.lookup k := by
  have hb : (k == k') = false := by
    simp only [beq_eq_false_iff_ne, ne_eq]
    exact fun e => h e.symm
  induction m with
  | nil => simp [setKV, List.lookup, hb]
  | cons p rest ih =>
    obtain ⟨k1, v1⟩ := p
    by_cases h1 : k1 = k'
    · have hk1 : (k1 == k') = true := by simp [h1]
      have hb2 : (k == k1) = false := by rw [h1]; exact hb
      simp [setKV, hk1, List.lookup, hb, hb2]
    · have hk1 : (k1 == k') = false := by simp [h1]
      simp only [setKV, hk1, Bool.false_eq_true, if_false, List.lookup]
      cases hkk : k == k1 <;> simp [ih]

theorem getLast?_cons_or (i : String) (l : List String) :
    (i :: l).getLast? = l.getLast?.or (some i) := by
  cases l with
  | nil => simp [Option.or]
  | cons a t =>
    have hs : (a :: t).getLast?.isSome := by simp [List.getLast?_isSome]
    cases hl : (a :: t).getLast? with
    | none => rw [hl] at hs; simp at hs
    | some x => simp [List.getLast?_cons_cons, hl, Option.or]

/-- The normalized-title table after registering `ids` maps a key to the id
registered most recently among those normalizing to it (general form over an
arbitrary initial table). -/
theorem registerIds_fold_lookup (ids : List String) (m : List (String × String))
    (k : String) :
    (ids.foldl (fun m id => setKV m (normalizeTitle id) id) m).lookup k =
      ((ids.filter (fun i => normalizeTitle i == k)).getLast?).or (m.lookup k) := by
  induction ids generalizing m with
  | nil => simp
  | cons i rest ih =>
    simp only [List.foldl_cons, List.filter_cons]
    by_cases h : normalizeTitle i = k
    · have hb : (normalizeTitle i == k) = true := by simp [h]
      rw [ih, hb]
      simp only [if_true]
      rw [getLast?_cons_or, Option.or_assoc, h, lookup_setKV_self]
      rfl
    · have hb : (normalizeTitle i == k) = false := by simp [h]
      rw [ih, hb]
      simp only [Bool.false_eq_true, if_false]
      rw [lookup_setKV_ne _ _ _ _ h]

/-! ## Claim C4: normalized-title collisions -/

/-- A circular node as `processCircular` would build it from a primary-source
entry carrying only an ID. -/
def plainNode (id : String) : BNode :=
  { id := id, label := id, title := id, date := "", year := none,
    department := "Other", url := "", content := [], type := "circular",
    refCount := 0, fromCache := false }

def idA : String := "ABC No. 01"
def idB : String := "ABC No. 1"

def nmAB : List (String × BNode) := deduplicateNodes [plainNode idA, plainNode idB]

/-- An extracted circular reference whose target is the normalized title of
both colliding nodes. -/
def eAB : BEdge :=
  { source := idA, target := "abc no 1", refType := "circular",
    refTitle := "ABC No. 001", refUrl := "" }

/-- C4, counterexample: two distinct ids normalize to the same key, and an
edge resolving through that key resolves to the id registered LAST
(`Map.set` overwrites), not to the first-registered one as the claim states. -/
theorem C4_first_registration_cex :
    idA ≠ idB ∧ normalizeTitle idA = normalizeTitle idB
    ∧ (validateEdges [eAB] nmAB (registerIds [idA, idB])).1.map (fun v => v.target)
        = [idB] := by
  refine ⟨by decide, by decide, by decide⟩

/-- C4 (amended): a normalized-title collision is resolved by
last-registration precedence: a target that is not a literal node id resolves
to the most recently registered id among those whose normalized title equals
the key (or stays unresolved if there is none). -/
theorem C4_collision_last_registration (ids : List String)
    (nm : List (String × BNode)) (t : String) (h : nmHas nm t = false) :
    resolveTarget nm (registerIds ids) t =
      match (ids.filter (fun i => normalizeTitle i == t)).getLast? with
      | some v => v
      | none => t := by
  unfold resolveTarget
  rw [h]
  simp only [Bool.not_false, if_true]
  unfold registerIds
  rw [registerIds_fold_lookup]
  cases (ids.filter (fun i => normalizeTitle i == t)).getLast? <;>
    simp [Option.or, List.lookup]

/-- Witness for `C4_collision_last_registration` at a concrete collision. -/
theorem C4_collision_last_registration_witness :
    nmHas ([] : List (String × BNode)) "abc no 1" = false
    ∧ resolveTarget [] (registerIds [idA, idB]) "abc no 1" = idB := by
  refine ⟨by decide, ?_⟩
  rw [C4_collision_last_registration [idA, idB] [] "abc no 1" (by decide)]
  decide

/-! ## Claim C3: deduplication merge -/

/-- The cache record of a circular (as `extractCircularsFromCache` builds it:
the title is the id itself, date/url empty, year null). -/
def cacheN : BNode :=
  { id := "ACD Circular No. 01", label := "ACD Circular No. 01",
    title := "ACD Circular No. 01", date := "", year := none,
    department := "ACD", url := "", content := [], type := "circular",
    refCount := 0, fromCache := true }

/-- The authoritative record of the same circular from a primary source. -/
def authN : BNode :=
  { id := "ACD Circular No. 01", label := "ACD Circular No. 01",
    title := "Prudential Regulations Update", date := "January 15, 2004",
    year := some 2004, department := "ACD",
    url := "https://example.org/acd/2004/c1.htm", content := ["para1"],
    type := "circular", refCount := 0, fromCache := false }

/-- C3, divergence: when the cache record is encountered first, the
authoritative record's non-empty `title` does NOT win (the merge only
backfills fields that are empty on the kept record), and the provenance does
NOT flip to authoritative (`if (!existingNode.fromCache) existingNode.fromCache
= node.fromCache` is a no-op: under the merge guard it can only assign `false`
to a field that is already `false`).  Empty fields are backfilled as claimed. -/
theorem C3_dedup_cache_first :
    ((deduplicateNodes [cacheN, authN]).lookup "ACD Circular No. 01").map
        (fun n => (n.title, n.fromCache, n.date, n.year, n.url, n.content)) =
      some ("ACD Circular No. 01", true, "January 15, 2004", some 2004,
        "https://example.org/acd/2004/c1.htm", ["para1"]) := by
  rfl

/-! ## Claim C7: edge validation and orphan accounting -/

theorem validateEdgesAux_spec (nm : List (String × BNode))
    (reg : List (String × String)) (rest : List BEdge) :
    ∀ acc orph,
      (validateEdgesAux nm reg rest acc orph).1.length
          = acc.length + rest.countP (edgeResolvable nm reg)
      ∧ (validateEdgesAux nm reg rest acc orph).2
          = orph + rest.countP (fun e => !(edgeResolvable nm reg e))
      ∧ ∀ v ∈ (validateEdgesAux nm reg rest acc orph).1,
          v ∈ acc ∨ (nmHas nm v.source = true ∧ nmHas nm v.target = true) := by
  induction rest with
  | nil =>
    intro acc orph
    refine ⟨by simp [validateEdgesAux], by simp [validateEdgesAux], ?_⟩
    intro v hv
    exact Or.inl (by simpa [validateEdgesAux] using hv)
  | cons e rest ih =>
    intro acc orph
    simp only [validateEdgesAux]
    cases h : edgeResolvable nm reg e with
    | true =>
      have h' : (nmHas nm e.source && nmHas nm (resolveTarget nm reg e.target)) = true := h
      have hsrc : nmHas nm e.source = true ∧
          nmHas nm (resolveTarget nm reg e.target) = true := by
        constructor
        · cases hx : nmHas nm e.source
          · rw [hx] at h'; simp at h'
          · rfl
        · cases hx : nmHas nm (resolveTarget nm reg e.target)
          · rw [hx] at h'; simp at h'
          · rfl
      simp only [h', if_true]
      obtain ⟨ih1, ih2, ih3⟩ :=
        ih (acc ++ [mkVEdge e (resolveTarget nm reg e.target) acc.length]) orph
      refine ⟨?_, ?_, ?_⟩
      · rw [ih1]
        simp [List.countP_cons, h]
        omega
      · rw [ih2]
        simp [List.countP_cons, h]
      · intro v hv
        rcases ih3 v hv with hacc | hok
        · rcases List.mem_append.mp hacc with h1 | h2
          · exact Or.inl h1
          · right
            have hv2 : v = mkVEdge e (resolveTarget nm reg e.target) acc.length := by
              simpa using h2
            subst hv2
            exact ⟨hsrc.1, hsrc.2⟩
        · exact Or.inr hok
    | false =>
      have h' : (nmHas nm e.source && nmHas nm (resolveTarget nm reg e.target)) = false := h
      simp only [h', Bool.false_eq_true, if_false]
      obtain ⟨ih1, ih2, ih3⟩ := ih acc (orph + 1)
      refine ⟨?_, ?_, ?_⟩
      · rw [ih1]
        simp [List.countP_cons, h]
      · rw [ih2]
        simp [List.countP_cons, h]
        omega
      · exact ih3

/-- C7: `validateEdges` returns exactly `N - M` edges where `M` is the number
of unresolvable edges, reports `M` as the orphan count, and every returned
edge has both endpoints present in the node map. -/
theorem C7_validateEdges_spec (edges : List BEdge) (nm : List (String × BNode))
    (reg : List (String × String)) :
    (validateEdges edges nm reg).1.length + (validateEdges edges nm reg).2
        = edges.length
    ∧ (validateEdges edges nm reg).2
        = edges.countP (fun e => !(edgeResolvable nm reg e))
    ∧ ∀ v ∈ (validateEdges edges nm reg).1,
        nmHas nm v.source = true ∧ nmHas nm v.target = true := by
  obtain ⟨h1, h2, h3⟩ := validateEdgesAux_spec nm reg edges [] 0
  refine ⟨?_, ?_, ?_⟩
  · unfold validateEdges
    rw [h1, h2]
    simp only [List.length_nil, Nat.zero_add]
    have hc := List.length_eq_countP_add_countP (edgeResolvable nm reg) edges
    have he : edges.countP (fun a => decide ¬(edgeResolvable nm reg a = true))
        = edges.countP (fun e => !(edgeResolvable nm reg e)) := by
      apply List.countP_congr
      intro a _
      cases edgeResolvable nm reg a <;> simp
    omega
  · unfold validateEdges
    rw [h2]
    simp
  · intro v hv
    rcases h3 v hv with h | h
    · simp at h
    · exact h

/-- Witness for `C7_validateEdges_spec`: one resolvable and one orphaned edge. -/
theorem C7_validateEdges_spec_witness :
    (validateEdges [eAB, { eAB with target := "no such node" }] nmAB
        (registerIds [idA, idB])).1.length
      + (validateEdges [eAB, { eAB with target := "no such node" }] nmAB
          (registerIds [idA, idB])).2 = 2
    ∧ (validateEdges [eAB, { eAB with target := "no such node" }] nmAB
        (registerIds [idA, idB])).2 = 1 := by
  have h := C7_validateEdges_spec [eAB, { eAB with target := "no such node" }]
    nmAB (registerIds [idA, idB])
  refine ⟨?_, ?_⟩
  · rw [h.1]; decide
  · rw [h.2.1]; decide

/-! ## Claim C8: reference counts -/

theorem lookup_bumpRef (nm : List (String × BNode)) (tid id : String) :
    (bumpRef nm tid).lookup id =
      (nm.lookup id).map
        (fun v => if id = tid then { v with refCount := v.refCount + 1 } else v) := by
  induction nm with
  | nil => simp [bumpRef, List.lookup]
  | cons p rest ih =>
    obtain ⟨k, v⟩ := p
    by_cases hk : k = tid
    · subst hk
      have hkk : (k == k) = true := by simp
      by_cases hid : id = k
      · subst hid
        simp [bumpRef, List.lookup]
      · have hb : (id == k) = false := by simp [hid]
        simp [bumpRef, List.lookup, hb, hid]
    · have hb : (k == tid) = false := by simp [hk]
      by_cases hid : id = k
      · subst hid
        have hid2 : ¬ id = tid := hk
        simp [bumpRef, List.lookup, hb, hid2]
      · have hb2 : (id == k) = false := by simp [hid]
        simp [bumpRef, List.lookup, hb, hb2, ih]

theorem lookup_calcRefCounts (es : List VEdge) (nm : List (String × BNode))
    (id : String) :
    (calculateReferenceCounts nm es).lookup id =
      (nm.lookup id).map
        (fun v => { v with refCount := v.refCount + es.countP (fun e => e.target == id) }) := by
  induction es generalizing nm with
  | nil =>
    simp only [calculateReferenceCounts, List.foldl_nil, List.countP_nil]
    cases nm.lookup id <;> simp
  | cons e rest ih =>
    simp only [calculateReferenceCounts, List.foldl_cons] at ih ⊢
    rw [ih (bumpRef nm e.target), lookup_bumpRef]
    cases h : nm.lookup id with
    | none => simp
    | some v =>
      simp only [Option.map_some, Option.map_map, Function.comp]
      by_cases ht : id = e.target
      · have hb2 : (e.target == id) = true := by simp [ht]
        simp only [ht, if_true, List.countP_cons, hb2, if_pos]
        simp
        omega
      · have hb2 : (e.target == id) = false := by
          simp only [beq_eq_false_iff_ne, ne_eq]
          exact fun h0 => ht h0.symm
        simp [ht, List.countP_cons, hb2]

theorem lookup_mem {β : Type} (m : List (String × β)) (k : String) (v : β)
    (h : m.lookup k = some v) : (k, v) ∈ m := by
  induction m with
  | nil => simp [List.lookup] at h
  | cons p rest ih =>
    obtain ⟨k', v'⟩ := p
    by_cases hk : k = k'
    · subst hk
      simp [List.lookup] at h
      simp [h]
    · have hb : (k == k') = false := by simp [hk]
      simp only [List.lookup, hb] at h
      exact List.mem_cons_of_mem _ (ih h)

theorem mergeNode_refCount (e n : BNode) : (mergeNode e n).refCount = e.refCount := by
  unfold mergeNode
  split <;> rfl

theorem mem_updateNode (m : List (String × BNode)) (id : String) (n : BNode)
    (p : String × BNode) (h : p ∈ updateNode m id n) : p ∈ m ∨ p.2 = n := by
  induction m with
  | nil => simp [updateNode] at h
  | cons q rest ih =>
    obtain ⟨k, v⟩ := q
    by_cases hk : k = id
    · have hb : (k == id) = true := by simp [hk]
      simp only [updateNode, hb, if_true] at h
      rcases List.mem_cons.mp h with h1 | h1
      · right; rw [h1]
      · left; exact List.mem_cons_of_mem _ h1
    · have hb : (k == id) = false := by simp [hk]
      simp only [updateNode, hb, Bool.false_eq_true, if_false] at h
      rcases List.mem_cons.mp h with h1 | h1
      · left; simp [h1]
      · rcases ih h1 with h2 | h2
        · left; exact List.mem_cons_of_mem _ h2
        · right; exact h2

theorem dedup_refCount_zero (nodes : List BNode)
    (h0 : ∀ n ∈ nodes, n.refCount = 0) :
    ∀ p ∈ deduplicateNodes nodes, p.2.refCount = 0 := by
  suffices h : ∀ (l : List BNode) (m : List (String × BNode)),
      (∀ n ∈ l, n.refCount = 0) → (∀ p ∈ m, p.2.refCount = 0) →
      ∀ p ∈ l.foldl
        (fun m node =>
          match m.lookup node.id with
          | some existing => updateNode m node.id (mergeNode existing node)
          | none => m ++ [(node.id, node)])
        m, p.2.refCount = 0 by
    exact h nodes [] h0 (by simp)
  intro l
  induction l with
  | nil => intro m _ hm p hp; exact hm p hp
  | cons node rest ih =>
    intro m hl hm p hp
    simp only [List.foldl_cons] at hp
    refine ih _ (fun n hn => hl n (List.mem_cons_of_mem _ hn)) ?_ p hp
    intro q hq
    cases hlk : m.lookup node.id with
    | some existing =>
      rw [hlk] at hq
      rcases mem_updateNode _ _ _ _ hq with h1 | h1
      · exact hm q h1
      · rw [h1, mergeNode_refCount]
        exact hm _ (lookup_mem m node.id existing hlk)
    | none =>
      rw [hlk] at hq
      rcases List.mem_append.mp hq with h1 | h1
      · exact hm q h1
      · have : q = (node.id, node) := by simpa using h1
        rw [this]
        exact hl node (List.mem_cons_self node rest)

/-- C8: in the built graph every node's `refCount` equals the number of
validated edges targeting it (its in-degree after validation); the extraction
phase always creates nodes with `refCount` 0 (captured by the hypothesis), so
the count is never taken from source data. -/
theorem C8_refCount_is_indegree (nodes : List BNode) (edges : List BEdge)
    (reg : List (String × String)) (id : String) (n : BNode)
    (h0 : ∀ m ∈ nodes, m.refCount = 0)
    (h : (buildNodeMap nodes edges reg).lookup id = some n) :
    n.refCount = (validateEdges edges (deduplicateNodes nodes) reg).1.countP
        (fun e => e.target == id) := by
  simp only [buildNodeMap] at h
  rw [lookup_calcRefCounts] at h
  cases hd : (deduplicateNodes nodes).lookup id with
  | none => rw [hd] at h; simp at h
  | some v =>
    rw [hd] at h
    simp only [Option.map_some', Option.some_inj] at h
    have hz : v.refCount = 0 :=
      dedup_refCount_zero nodes h0 _ (lookup_mem _ _ _ hd)
    rw [← h]
    show v.refCount + _ = _
    rw [hz]
    exact Nat.zero_add _

/-- Witness for `C8_refCount_is_indegree`: the collision fixture graph, where
`idB` is the target of the one validated edge. -/
theorem C8_refCount_is_indegree_witness :
    (∀ m ∈ [plainNode idA, plainNode idB], m.refCount = 0)
    ∧ ({ plainNode idB with refCount := 1 } : BNode).refCount
        = (validateEdges [eAB] (deduplicateNodes [plainNode idA, plainNode idB])
            (registerIds [idA, idB])).1.countP (fun e => e.target == idB) :=
  ⟨by decide,
   C8_refCount_is_indegree [plainNode idA, plainNode idB] [eAB]
     (registerIds [idA, idB]) idB { plainNode idB with refCount := 1 }
     (by decide) (by decide)⟩

/-! ## Claims C2, C5, C6: the visibility derivation -/

theorem mem_applyFilters_nodes (st : FilterState) (nodes : List FNode)
    (edges : List FEdge) (n : FNode) (v : NodeVis)
    (h : (n, v) ∈ (applyFilters st nodes edges).1) : v = nodeVis st edges n := by
  simp only [applyFilters] at h
  obtain ⟨a, _, heq⟩ := List.mem_map.mp h
  obtain ⟨h1, h2⟩ := Prod.mk.injEq .. ▸ heq
  rw [← h2, h1]

/-- C2: a node is hidden after `applyFilters` iff its department is not in the
allowed set, or it has a (truthy) year outside the selected range, or
cycles-only is on and it is not in a cycle, or isolated nodes are hidden and
its total degree is zero. -/
theorem C2_node_hidden_iff (st : FilterState) (nodes : List FNode)
    (edges : List FEdge) (n : FNode) (v : NodeVis)
    (h : (n, v) ∈ (applyFilters st nodes edges).1) :
    v.hidden = true ↔
      (st.departments.contains n.department = false
        ∨ yearOut st n.year = true
        ∨ (st.showCyclesOnly = true ∧ n.inCycle = false)
        ∨ (st.showIsolated = false ∧ nodeDegree edges n.id = 0)) := by
  rw [mem_applyFilters_nodes st nodes edges n v h]
  simp only [nodeVis, Bool.or_eq_true, Bool.and_eq_true, Bool.not_eq_true',
    beq_iff_eq, or_assoc]

/-- Witness for `C2_node_hidden_iff`: a node hidden by the department filter. -/
theorem C2_node_hidden_iff_witness :
    ((⟨"A", "Alpha", some 2010, "BSD", false⟩ : FNode),
        nodeVis ⟨["ACD"], 2000, 2025, "", false, false, true⟩ []
          ⟨"A", "Alpha", some 2010, "BSD", false⟩) ∈
      (applyFilters ⟨["ACD"], 2000, 2025, "", false, false, true⟩
        [⟨"A", "Alpha", some 2010, "BSD", false⟩] []).1
    ∧ ((nodeVis ⟨["ACD"], 2000, 2025, "", false, false, true⟩ []
          ⟨"A", "Alpha", some 2010, "BSD", false⟩).hidden = true ↔
        ((["ACD"] : List String).contains "BSD" = false
          ∨ yearOut ⟨["ACD"], 2000, 2025, "", false, false, true⟩ (some 2010) = true
          ∨ (false = true ∧ false = false)
          ∨ (true = false ∧ nodeDegree [] "A" = 0))) :=
  ⟨by decide,
   C2_node_hidden_iff ⟨["ACD"], 2000, 2025, "", false, false, true⟩
     [⟨"A", "Alpha", some 2010, "BSD", false⟩] []
     ⟨"A", "Alpha", some 2010, "BSD", false⟩ _ (by decide)⟩

/-- C5: an edge is hidden after `applyFilters` iff at least one of its two
endpoint nodes is hidden; the edge carries no visibility input of its own. -/
theorem C5_edge_hidden_iff (st : FilterState) (nodes : List FNode)
    (edges : List FEdge) (e : FEdge) (b : Bool)
    (h : (e, b) ∈ (applyFilters st nodes edges).2) :
    b = true ↔
      (hiddenOf (applyFilters st nodes edges).1 e.source = true
        ∨ hiddenOf (applyFilters st nodes edges).1 e.target = true) := by
  simp only [applyFilters] at h ⊢
  obtain ⟨a, _, heq⟩ := List.mem_map.mp h
  obtain ⟨h1, h2⟩ := Prod.mk.injEq .. ▸ heq
  rw [← h2, h1]
  simp [Bool.or_eq_true]

/-- Witness for `C5_edge_hidden_iff`: an edge with one hidden endpoint. -/
theorem C5_edge_hidden_iff_witness :
    ((⟨"A", "B"⟩ : FEdge), true) ∈
      (applyFilters ⟨["ACD"], 2000, 2025, "", false, false, true⟩
        [⟨"A", "Alpha", some 2010, "BSD", false⟩,
         ⟨"B", "Beta", some 2011, "ACD", false⟩] [⟨"A", "B"⟩]).2
    ∧ (true = true ↔
        (hiddenOf (applyFilters ⟨["ACD"], 2000, 2025, "", false, false, true⟩
            [⟨"A", "Alpha", some 2010, "BSD", false⟩,
             ⟨"B", "Beta", some 2011, "ACD", false⟩] [⟨"A", "B"⟩]).1 "A" = true
          ∨ hiddenOf (applyFilters ⟨["ACD"], 2000, 2025, "", false, false, true⟩
              [⟨"A", "Alpha", some 2010, "BSD", false⟩,
               ⟨"B", "Beta", some 2011, "ACD", false⟩] [⟨"A", "B"⟩]).1 "B" = true)) :=
  ⟨by decide,
   C5_edge_hidden_iff ⟨["ACD"], 2000, 2025, "", false, false, true⟩
     [⟨"A", "Alpha", some 2010, "BSD", false⟩,
      ⟨"B", "Beta", some 2011, "ACD", false⟩] [⟨"A", "B"⟩] ⟨"A", "B"⟩ true (by decide)⟩

/-- The filter state of the C6 counterexample: department filter excludes the
node, and a non-empty search query does not match it. -/
def stC6 : FilterState :=
  { departments := [], yearMin := 2000, yearMax := 2025, searchQuery := "zzz",
    showCyclesOnly := false, showLabels := false, showIsolated := true }

def nC6 : FNode := ⟨"A", "Alpha", some 2010, "BSD", false⟩

/-- C6, counterexample: the search query is non-empty and matches neither id
nor title, yet the node is NOT dimmed, because the search pass skips nodes
already hidden by the department/year passes — dimming is not independent of
the hidden decision. -/
theorem C6_dimmed_independence_cex :
    stC6.searchQuery ≠ ""
    ∧ searchMatch stC6 nC6 = false
    ∧ (applyFilters stC6 [nC6] []).1 = [(nC6, ⟨true, false⟩)] := by
  refine ⟨by decide, by decide, by decide⟩

/-- C6 (amended): a node is dimmed iff the search query is non-empty, the
node matches neither by id nor by title, and the node was not already hidden
by the department or year passes (which run before the search pass; nodes
hidden only by the later cycles-only or isolated passes can still be dimmed). -/
theorem C6_dimmed_iff (st : FilterState) (nodes : List FNode)
    (edges : List FEdge) (n : FNode) (v : NodeVis)
    (h : (n, v) ∈ (applyFilters st nodes edges).1) :
    v.dimmed = true ↔
      (st.searchQuery ≠ ""
        ∧ searchMatch st n = false
        ∧ st.departments.contains n.department = true
        ∧ yearOut st n.year = false) := by
  rw [mem_applyFilters_nodes st nodes edges n v h]
  simp only [nodeVis, Bool.and_eq_true, Bool.not_eq_true', Bool.or_eq_true,
    bne_iff_ne, ne_eq]
  constructor
  · rintro ⟨⟨hq, hm⟩, hh⟩
    rcases Bool.or_eq_false_iff.mp hh with ⟨h1, h2⟩
    exact ⟨hq, hm, by simpa using h1, h2⟩
  · rintro ⟨hq, hm, hd, hy⟩
    refine ⟨⟨hq, hm⟩, ?_⟩
    rw [hd, hy]
    simp

/-- Witness for `C6_dimmed_iff`: a visible non-matching node is dimmed. -/
theorem C6_dimmed_iff_witness :
    ((⟨"A", "Alpha", some 2010, "BSD", false⟩ : FNode),
        nodeVis ⟨["BSD"], 2000, 2025, "zzz", false, false, true⟩ []
          ⟨"A", "Alpha", some 2010, "BSD", false⟩) ∈
      (applyFilters ⟨["BSD"], 2000, 2025, "zzz", false, false, true⟩
        [⟨"A", "Alpha", some 2010, "BSD", false⟩] []).1
    ∧ ((nodeVis ⟨["BSD"], 2000, 2025, "zzz", false, false, true⟩ []
          ⟨"A", "Alpha", some 2010, "BSD", false⟩).dimmed = true ↔
        (("zzz" : String) ≠ ""
          ∧ searchMatch ⟨["BSD"], 2000, 2025, "zzz", false, false, true⟩
              ⟨"A", "Alpha", some 2010, "BSD", false⟩ = false
          ∧ (["BSD"] : List String).contains "BSD" = true
          ∧ yearOut ⟨["BSD"], 2000, 2025, "zzz", false, false, true⟩ (some 2010) = false)) :=
  ⟨by decide,
   C6_dimmed_iff ⟨["BSD"], 2000, 2025, "zzz", false, false, true⟩
     [⟨"A", "Alpha", some 2010, "BSD", false⟩] []
     ⟨"A", "Alpha", some 2010, "BSD", false⟩ _ (by decide)⟩

/-! ## Claim C9: filter-state persistence -/

def stDef : FilterState :=
  { departments := ["ACD", "BPRD"], yearMin := 2000, yearMax := 2025,
    searchQuery := "", showCyclesOnly := false, showLabels := false,
    showIsolated := true }

/-- C9, counterexample: the persisted record has six fields, omits
`searchQuery`, and the search handler writes nothing to storage — so the
record does not contain all seven documented fields. -/
theorem C9_persisted_record_cex :
    ((saveFilterState stDef).map Prod.fst).contains "searchQuery" = false
    ∧ (saveFilterState stDef).length = 6
    ∧ (onSearchInput stDef "Basel III").2 = none := by
  refine ⟨by decide, by decide, by decide⟩

/-- C9 (amended): for every filter state the persisted record consists of
exactly the six fields departments, yearMin, yearMax, showCyclesOnly,
showLabels, showIsolated (in that order); `searchQuery` is never persisted,
and the search-input handler does not write to storage at all. -/
theorem C9_persisted_record_shape (st : FilterState) :
    (saveFilterState st).map Prod.fst
        = ["departments", "yearMin", "yearMax", "showCyclesOnly", "showLabels",
           "showIsolated"]
    ∧ (saveFilterState st).lookup "searchQuery" = none
    ∧ ∀ value, (onSearchInput st value).2 = none := by
  refine ⟨rfl, ?_, fun _ => rfl⟩
  simp [saveFilterState, List.lookup]

/-! ## Claim C1: cycle detection

Soundness machinery: every state reachable in the DFS keeps `path`/`edgePath`
a genuine chain of circular-type edges, so every recorded cycle is a genuine
closed path. -/

theorem getLast?_drop (i : Nat) (l : List String) (h : i < l.length) :
    (l.drop i).getLast? = l.getLast? := by
  induction i generalizing l with
  | zero => simp
  | succ n ih =>
    cases l with
    | nil => simp at h
    | cons a t =>
      simp only [List.drop_succ_cons]
      rw [ih t (by simpa using h)]
      cases t with
      | nil => simp at h
      | cons b t' => simp [List.getLast?_cons_cons]

theorem findIdx?_go_spec (t : String) :
    ∀ (l : List String) (start i : Nat),
      List.findIdx? (fun x => x == t) l start = some i →
      start ≤ i ∧ (i - start) < l.length ∧ (l.drop (i - start)).head? = some t := by
  intro l
  induction l with
  | nil => intro start i h; simp [List.findIdx?] at h
  | cons a rest ih =>
    intro start i h
    rw [List.findIdx?_cons] at h
    by_cases hpa : (a == t) = true
    · rw [if_pos hpa] at h
      obtain rfl : start = i := by simpa using h
      refine ⟨Nat.le_refl _, by simp, ?_⟩
      simp [Nat.sub_self, eq_of_beq hpa]
    · rw [if_neg hpa] at h
      obtain ⟨h1, h2, h3⟩ := ih (start + 1) i h
      have hstart : start ≤ i := Nat.le_trans (Nat.le_succ start) h1
      have hdelta : i - start = (i - (start + 1)) + 1 := by omega
      refine ⟨hstart, by simp; omega, ?_⟩
      rw [hdelta]
      simpa using h3

theorem findIdx?_spec (l : List String) (t : String) (i : Nat)
    (h : l.findIdx? (fun x => x == t) = some i) :
    i < l.length ∧ (l.drop i).head? = some t := by
  obtain ⟨_, h2, h3⟩ := findIdx?_go_spec t l 0 i h
  rw [Nat.sub_zero] at h2 h3
  exact ⟨h2, h3⟩

theorem chainB_drop (es : List GEdge) (i : Nat) :
    ∀ (ns : List String) (eids : List String),
      chainB es ns eids = true → i < ns.length →
      chainB es (ns.drop i) (eids.drop i) = true := by
  induction i with
  | zero => intro ns eids h _; simpa using h
  | succ n ih =>
    intro ns eids h hlen
    match ns, eids with
    | [x], [] => simp at hlen
    | [x], e :: es' => simp [chainB] at h
    | [], _ => simp at hlen
    | x :: y :: rest, [] => simp [chainB] at h
    | x :: y :: rest, e :: eids' =>
      simp only [chainB, Bool.and_eq_true] at h
      simp only [List.drop_succ_cons]
      exact ih (y :: rest) eids' h.2 (by simpa using Nat.lt_of_succ_lt_succ hlen)

theorem chainB_snoc (es : List GEdge) :
    ∀ (ns : List String) (eids : List String) (a t eid : String),
      chainB es ns eids = true → ns.getLast? = some a →
      edgeOkB es eid a t = true →
      chainB es (ns ++ [t]) (eids ++ [eid]) = true := by
  intro ns
  induction ns with
  | nil => intro eids a t eid h _ _; cases eids <;> simp [chainB] at h
  | cons x rest ih =>
    intro eids a t eid h hlast hok
    cases rest with
    | nil =>
      cases eids with
      | nil =>
        obtain rfl : x = a := by simpa using hlast
        simpa [chainB] using hok
      | cons e es' => simp [chainB] at h
    | cons y rest' =>
      cases eids with
      | nil => simp [chainB] at h
      | cons e eids' =>
        simp only [chainB, Bool.and_eq_true] at h
        have hlast' : (y :: rest').getLast? = some a := by
          simpa [List.getLast?_cons_cons] using hlast
        have := ih eids' a t eid h.2 hlast' hok
        simp only [List.cons_append, chainB, Bool.and_eq_true]
        exact ⟨h.1, this⟩

/-- The invariant carried through the DFS: every already-recorded cycle is a
genuine closed path of circular-type edges of `es`. -/
def GoodCycles (es : List GEdge) (s : DfsState) : Prop :=
  ∀ c ∈ s.cycles, closedPathB es c = true

theorem recordCycle_sound (es : List GEdge) (s : DfsState)
    (path1 edgePath : List String) (target edgeId nodeId : String)
    (hc : chainB es path1 edgePath = true)
    (hl : path1.getLast? = some nodeId)
    (hok : edgeOkB es edgeId nodeId target = true)
    (hs : GoodCycles es s) :
    GoodCycles es (recordCycle s path1 edgePath target edgeId) := by
  unfold recordCycle
  cases hidx : path1.findIdx? (fun x => x == target) with
  | none => exact hs
  | some i =>
    obtain ⟨hlt, hhead⟩ := findIdx?_spec path1 target i hidx
    intro c hcmem
    simp only [List.mem_append] at hcmem
    rcases hcmem with hold | hnew
    · exact hs c hold
    · have hcq : c = ⟨path1.drop i, edgePath.drop i ++ [edgeId], (path1.drop i).length⟩ := by
        simpa using hnew
      subst hcq
      have hchain : chainB es (path1.drop i) (edgePath.drop i) = true :=
        chainB_drop es i path1 edgePath hc hlt
      have hlast : (path1.drop i).getLast? = some nodeId := by
        rw [getLast?_drop i path1 hlt]; exact hl
      simp only [closedPathB]
      cases hdrop : path1.drop i with
      | nil => rw [hdrop] at hhead; simp at hhead
      | cons a rest =>
        have hat : a = target := by
          rw [hdrop] at hhead; simpa using hhead
        rw [hdrop] at hchain hlast
        have hgl : (edgePath.drop i ++ [edgeId]).getLast? = some edgeId :=
          List.getLast?_concat _
        simp only [hgl]
        rw [List.dropLast_concat]
        refine Bool.and_intro hchain ?_
        have : (a :: rest).getLastD a = nodeId := by
          rw [List.getLastD_eq_getLast?, hlast]
          rfl
        rw [this, hat]
        exact hok

theorem dfsNeighbors_sound (es : List GEdge)
    (visitF : String → List String → List String → DfsState → DfsState)
    (hvF : ∀ t p e st, chainB es (p ++ [t]) e = true → GoodCycles es st →
      GoodCycles es (visitF t p e st)) :
    ∀ (neighbors : List (String × String)) (nodeId : String)
      (path1 edgePath : List String) (s : DfsState),
      (∀ q ∈ neighbors, edgeOkB es q.2 nodeId q.1 = true) →
      chainB es path1 edgePath = true →
      path1.getLast? = some nodeId →
      GoodCycles es s →
      GoodCycles es (dfsNeighbors visitF neighbors nodeId path1 edgePath s) := by
  intro neighbors
  induction neighbors with
  | nil => intro nodeId path1 edgePath s _ _ _ hs; exact hs
  | cons q rest ih =>
    intro nodeId path1 edgePath s hn hc hl hs
    obtain ⟨target, edgeId⟩ := q
    have hok : edgeOkB es edgeId nodeId target = true :=
      hn (target, edgeId) (List.mem_cons_self _ _)
    have hn' : ∀ q ∈ rest, edgeOkB es q.2 nodeId q.1 = true :=
      fun q hq => hn q (List.mem_cons_of_mem _ hq)
    simp only [dfsNeighbors]
    by_cases h1 : s.recStack.contains target
    · simp only [h1, if_true]
      exact ih nodeId path1 edgePath _ hn' hc hl
        (recordCycle_sound es s path1 edgePath target edgeId nodeId hc hl hok hs)
    · simp only [h1, Bool.false_eq_true, if_false]
      by_cases h2 : s.visited.contains target
      · simp only [h2, if_true]
        exact ih nodeId path1 edgePath s hn' hc hl hs
      · simp only [h2, Bool.false_eq_true, if_false]
        refine ih nodeId path1 edgePath _ hn' hc hl ?_
        refine hvF target path1 (edgePath ++ [edgeId]) s ?_ hs
        exact chainB_snoc es path1 edgePath nodeId target edgeId hc hl hok

theorem dfsVisit_sound (es : List GEdge)
    (adj : List (String × List (String × String)))
    (hadj : ∀ a, ∀ q ∈ adjLookup adj a, edgeOkB es q.2 a q.1 = true) :
    ∀ (fuel : Nat) (nodeId : String) (path edgePath : List String) (s : DfsState),
      chainB es (path ++ [nodeId]) edgePath = true →
      GoodCycles es s →
      GoodCycles es (dfsVisit adj fuel nodeId path edgePath s) := by
  intro fuel
  induction fuel with
  | zero => intro nodeId path edgePath s _ hs; exact hs
  | succ n ih =>
    intro nodeId path edgePath s hc hs
    simp only [dfsVisit]
    have hstep : GoodCycles es
        (dfsNeighbors (fun t p e st => dfsVisit adj n t p e st)
          (adjLookup adj nodeId) nodeId (path ++ [nodeId]) edgePath
          { s with visited := addSet s.visited nodeId
                   recStack := addSet s.recStack nodeId }) := by
      refine dfsNeighbors_sound es _ ?_ (adjLookup adj nodeId) nodeId
        (path ++ [nodeId]) edgePath _ (hadj nodeId) hc (List.getLast?_concat _) hs
      intro t p e st hch hst
      exact ih t p e st hch hst
    exact hstep

theorem mem_adjInit0 (m : List (String × List (String × String))) (k : String)
    (p : String × List (String × String)) (h : p ∈ adjInit0 m k) :
    p ∈ m ∨ p.2 = [] := by
  induction m with
  | nil => simp [adjInit0] at h; simp [h]
  | cons q rest ih =>
    obtain ⟨k', l⟩ := q
    by_cases hk : k' = k
    · have hb : (k' == k) = true := by simp [hk]
      simp only [adjInit0, hb, if_true] at h
      rcases List.mem_cons.mp h with h1 | h1
      · right; rw [h1]
      · left; exact List.mem_cons_of_mem _ h1
    · have hb : (k' == k) = false := by simp [hk]
      simp only [adjInit0, hb, Bool.false_eq_true, if_false] at h
      rcases List.mem_cons.mp h with h1 | h1
      · left; simp [h1]
      · rcases ih h1 with h2 | h2
        · left; exact List.mem_cons_of_mem _ h2
        · right; exact h2

theorem adjInit_values_nil (ns : List String) :
    ∀ (m : List (String × List (String × String))),
      (∀ p ∈ m, p.2 = []) → ∀ p ∈ ns.foldl adjInit0 m, p.2 = [] := by
  induction ns with
  | nil => intro m hm p hp; exact hm p hp
  | cons a rest ih =>
    intro m hm p hp
    simp only [List.foldl_cons] at hp
    refine ih _ ?_ p hp
    intro q hq
    rcases mem_adjInit0 m a q hq with h1 | h1
    · exact hm q h1
    · exact h1

theorem mem_adjAppend (m : List (String × List (String × String)))
    (k a : String) (x q : String × String)
    (h : q ∈ adjLookup (adjAppend m k x) a) :
    q ∈ adjLookup m a ∨ (a = k ∧ q = x) := by
  induction m with
  | nil => simp [adjAppend, adjLookup, List.lookup] at h
  | cons p rest ih =>
    obtain ⟨k', l⟩ := p
    by_cases hk : k' = k
    · have hb : (k' == k) = true := by simp [hk]
      simp only [adjAppend, hb, if_true] at h
      by_cases ha : a = k'
      · have hab : (a == k') = true := by simp [ha]
        simp only [adjLookup, List.lookup, hab] at h ⊢
        simp only [Option.getD_some] at h ⊢
        rcases List.mem_append.mp h with h1 | h1
        · exact Or.inl h1
        · right
          refine ⟨by rw [ha, hk], by simpa using h1⟩
      · have hab : (a == k') = false := by simp [ha]
        simp only [adjLookup, List.lookup, hab] at h ⊢
        exact Or.inl h
    · have hb : (k' == k) = false := by simp [hk]
      simp only [adjAppend, hb, Bool.false_eq_true, if_false] at h
      by_cases ha : a = k'
      · have hab : (a == k') = true := by simp [ha]
        simp only [adjLookup, List.lookup, hab] at h ⊢
        exact Or.inl h
      · have hab : (a == k') = false := by simp [ha]
        simp only [adjLookup, List.lookup, hab] at h ⊢
        exact ih h

theorem buildAdjacencyList_ok (g : CGraph) :
    ∀ a, ∀ q ∈ adjLookup (buildAdjacencyList g) a, edgeOkB g.edges q.2 a q.1 = true := by
  unfold buildAdjacencyList
  suffices h : ∀ (l : List GEdge) (m : List (String × List (String × String))),
      (∀ e ∈ l, e ∈ g.edges) →
      (∀ a, ∀ q ∈ adjLookup m a, edgeOkB g.edges q.2 a q.1 = true) →
      ∀ a, ∀ q ∈ adjLookup
        (l.foldl
          (fun m e =>
            if e.refType == "circular" then
              if adjHas m e.source then adjAppend m e.source (e.target, e.id) else m
            else m)
          m) a, edgeOkB g.edges q.2 a q.1 = true by
    refine h g.edges _ (fun e he => he) ?_
    intro a q hq
    have hz : ∀ p ∈ g.nodes.foldl adjInit0 [], p.2 = [] :=
      adjInit_values_nil g.nodes [] (by simp)
    exfalso
    unfold adjLookup at hq
    cases hlk : (g.nodes.foldl adjInit0 []).lookup a with
    | none => rw [hlk] at hq; simp at hq
    | some l =>
      rw [hlk] at hq
      have : l = [] := hz (a, l) (lookup_mem _ _ _ hlk)
      rw [this] at hq
      simp at hq
  intro l
  induction l with
  | nil => intro m _ hm; exact hm
  | cons e rest ih =>
    intro m hl hm
    simp only [List.foldl_cons]
    refine ih _ (fun e' he' => hl e' (List.mem_cons_of_mem _ he')) ?_
    intro a q hq
    by_cases hcirc : e.refType == "circular"
    · rw [if_pos hcirc] at hq
      by_cases hhas : adjHas m e.source
      · rw [if_pos hhas] at hq
        rcases mem_adjAppend m e.source a (e.target, e.id) q hq with h1 | ⟨rfl, rfl⟩
        · exact hm a q h1
        · unfold edgeOkB
          refine List.any_eq_true.mpr ⟨e, hl e (List.mem_cons_self _ _), ?_⟩
          simp [eq_of_beq hcirc]
      · rw [if_neg hhas] at hq
        exact hm a q hq
    · rw [if_neg hcirc] at hq
      exact hm a q hq

/-- C1 (amended, soundness half): every cycle in the list returned by
`detectCycles` is a genuine closed path of circular-type edges of the graph. -/
theorem C1_detected_cycles_sound (g : CGraph) (c : Cyc)
    (h : c ∈ (detectCycles g).cycles) : closedPathB g.edges c = true := by
  have hadj := buildAdjacencyList_ok g
  unfold detectCycles at h
  suffices hs : ∀ (l : List String) (s : DfsState), GoodCycles g.edges s →
      GoodCycles g.edges
        (l.foldl
          (fun s id =>
            if s.visited.contains id then s
            else dfsVisit (buildAdjacencyList g)
              (g.nodes.length + g.edges.length + 1) id [] [] s)
          s) by
    exact hs g.nodes ⟨[], [], [], [], []⟩ (by intro c hc; simp at hc) c h
  intro l
  induction l with
  | nil => intro s hs; exact hs
  | cons a rest ih =>
    intro s hs
    simp only [List.foldl_cons]
    refine ih _ ?_
    by_cases hv : s.visited.contains a
    · rw [if_pos hv]; exact hs
    · rw [if_neg hv]
      refine dfsVisit_sound g.edges _ hadj _ a [] [] s ?_ hs
      simp [chainB]

/-- The counterexample graph for C1: two simple cycles A→B→D→A and A→C→D→A
share the back edge D→A. -/
def Gc : CGraph :=
  { nodes := ["A", "B", "C", "D"]
    edges := [⟨"e1", "A", "B", "circular"⟩, ⟨"e2", "A", "C", "circular"⟩,
              ⟨"e3", "B", "D", "circular"⟩, ⟨"e4", "C", "D", "circular"⟩,
              ⟨"e5", "D", "A", "circular"⟩] }

/-- C1, counterexample: the closed path A→C→D→A of circular-type edges exists
in `Gc`, but `detectCycles` returns only the cycle A→B→D→A — the DFS finds at
most one cycle per back edge, and when it reaches D→A again through C, node D
is already globally visited, so the edge C→D is never followed.  Node C
appears in no returned cycle at all. -/
theorem C1_enumeration_cex :
    closedPathB Gc.edges ⟨["A", "C", "D"], ["e2", "e4", "e5"], 3⟩ = true
    ∧ (detectCycles Gc).cycles.map (fun c => c.nodes) = [["A", "B", "D"]]
    ∧ (detectCycles Gc).cycles.all (fun c => !(c.nodes.contains "C")) = true
    ∧ (detectCycles Gc).nodesInCycles.contains "C" = false := by
  refine ⟨by decide, by decide, by decide, by decide⟩

/-- The triangle graph used as the soundness witness. -/
def Gt : CGraph :=
  { nodes := ["A", "B", "C"]
    edges := [⟨"t1", "A", "B", "circular"⟩, ⟨"t2", "B", "C", "circular"⟩,
              ⟨"t3", "C", "A", "circular"⟩] }

/-- Witness for `C1_detected_cycles_sound`: the cycle reported on the
triangle graph is a genuine closed path. -/
theorem C1_detected_cycles_sound_witness :
    (⟨["A", "B", "C"], ["t1", "t2", "t3"], 3⟩ : Cyc) ∈ (detectCycles Gt).cycles
    ∧ closedPathB Gt.edges ⟨["A", "B", "C"], ["t1", "t2", "t3"], 3⟩ = true :=
  ⟨by decide, C1_detected_cycles_sound Gt ⟨["A", "B", "C"], ["t1", "t2", "t3"], 3⟩ (by decide)⟩

/-! ## Claim C10: idempotence of `normalizeTitle`

Strategy: characterize the output of each scanning pass by a matcher
predicate (no remaining `\b0+\d` match, no remaining `no.` window, whitespace
already collapsed and trimmed, all characters lowercase), show each later pass
preserves the earlier passes' properties, and show each pass is the identity
on strings satisfying its own property. -/

theorem toNat_ofNat_valid (n : Nat) (h : n.isValidChar) : (Char.ofNat n).toNat = n := by
  unfold Char.ofNat Char.ofNatAux
  rw [dif_pos h]
  simp [Char.toNat, UInt32.toNat, BitVec.toNat_ofNatLt]

theorem toLower_hi (c : Char) (h : 65 ≤ c.toNat ∧ c.toNat ≤ 90) :
    c.toLower = Char.ofNat (c.toNat + 32) := by
  simp only [Char.toLower]
  rw [if_pos ⟨h.1, h.2⟩]

theorem toLower_self (c : Char) (h : ¬(65 ≤ c.toNat ∧ c.toNat ≤ 90)) : c.toLower = c := by
  simp only [Char.toLower]
  rw [if_neg]
  intro hc
  exact h ⟨hc.1, hc.2⟩

theorem toLower_idem (c : Char) : Char.toLower (Char.toLower c) = Char.toLower c := by
  by_cases h : 65 ≤ c.toNat ∧ c.toNat ≤ 90
  · rw [toLower_hi c h]
    apply toLower_self
    rw [toNat_ofNat_valid _ (Or.inl (by omega))]
    omega
  · rw [toLower_self c h, toLower_self c h]

theorem map_toLower_fixed (l : List Char) (h : ∀ c ∈ l, c.toLower = c) :
    l.map Char.toLower = l := by
  induction l with
  | nil => rfl
  | cons c rest ih =>
    simp only [List.map_cons]
    rw [h c (List.mem_cons_self c rest), ih (fun d hd => h d (List.mem_cons_of_mem _ hd))]

theorem isJsSpace_cases (c : Char) (h : isJsSpace c = true) :
    c = ' ' ∨ c = '\t' ∨ c = '\n' ∨ c = '\r' ∨ c = '\x0b' ∨ c = '\x0c' := by
  simp only [isJsSpace, Bool.or_eq_true, beq_iff_eq] at h
  tauto

theorem isJsSpace_not_word (c : Char) (h : isJsSpace c = true) : isWordChar c = false := by
  rcases isJsSpace_cases c h with rfl | rfl | rfl | rfl | rfl | rfl <;> decide

theorem isJsSpace_not_digit (c : Char) (h : isJsSpace c = true) : c.isDigit = false := by
  rcases isJsSpace_cases c h with rfl | rfl | rfl | rfl | rfl | rfl <;> decide

theorem isJsSpace_ne_zero (c : Char) (h : isJsSpace c = true) : (c == '0') = false := by
  rcases isJsSpace_cases c h with rfl | rfl | rfl | rfl | rfl | rfl <;> decide

theorem isDigit_word (c : Char) (h : c.isDigit = true) : isWordChar c = true := by
  simp [isWordChar, h]

/-- A position where `/\b0+(\d)/` still matches: the boundary flag is set, the
current character is a zero, and a digit follows. -/
def hasZeroMatch : Bool → List Char → Bool
  | _, [] => false
  | b, c :: rest => (b && c == '0' && headIsDigit rest) || hasZeroMatch (!(isWordChar c)) rest

theorem stripZerosAux_fixed (l : List Char) :
    ∀ b, hasZeroMatch b l = false → stripZerosAux b l = l := by
  induction l with
  | nil => intro b _; rfl
  | cons c rest ih =>
    intro b h
    simp only [hasZeroMatch, Bool.or_eq_false_iff] at h
    simp only [stripZerosAux, h.1, Bool.false_eq_true, if_false]
    rw [ih _ h.2]

theorem stripZerosAux_head (l : List Char) :
    ∀ b, headIsDigit (stripZerosAux b l) = true → headIsDigit l = true := by
  induction l with
  | nil => intro b h; exact h
  | cons c rest ih =>
    intro b h
    by_cases hg : (b && c == '0' && headIsDigit rest) = true
    · simp only [headIsDigit]
      have : (c == '0') = true := by
        rcases Bool.and_eq_true_iff.mp hg with ⟨h1, _⟩
        exact (Bool.and_eq_true_iff.mp h1).2
      rw [eq_of_beq this]
      decide
    · simp only [stripZerosAux, hg, Bool.false_eq_true, if_false] at h
      exact h

theorem stripZerosAux_nomatch (l : List Char) :
    ∀ b, hasZeroMatch b (stripZerosAux b l) = false := by
  induction l with
  | nil => intro b; rfl
  | cons c rest ih =>
    intro b
    by_cases hg : (b && c == '0' && headIsDigit rest) = true
    · have hb : b = true := by
        rcases Bool.and_eq_true_iff.mp hg with ⟨h1, _⟩
        exact (Bool.and_eq_true_iff.mp h1).1
      simp only [stripZerosAux, hg, if_true]
      rw [hb]
      exact ih true
    · simp only [stripZerosAux, hg, Bool.false_eq_true, if_false, hasZeroMatch,
        Bool.or_eq_false_iff]
      refine ⟨?_, ih _⟩
      by_cases hz : (b && c == '0') = true
      · have hd : headIsDigit rest = false := by
          cases hdr : headIsDigit rest
          · rfl
          · exact absurd (by simp [hz, hdr]) hg
        have hfd : headIsDigit (stripZerosAux (!(isWordChar c)) rest) = false := by
          cases hsd : headIsDigit (stripZerosAux (!(isWordChar c)) rest)
          · rfl
          · rw [stripZerosAux_head rest _ hsd] at hd
            exact absurd hd (by simp)
        rw [hz, hfd]
        rfl
      · have hz' : (b && (c == '0')) = false := by
          cases h0 : (b && (c == '0'))
          · rfl
          · exact absurd h0 hz
        rw [hz']
        rfl

theorem stripZerosAux_mem (l : List Char) :
    ∀ b c, c ∈ stripZerosAux b l → c ∈ l := by
  induction l with
  | nil => intro b c h; simp [stripZerosAux] at h
  | cons a rest ih =>
    intro b c h
    by_cases hg : (b && a == '0' && headIsDigit rest) = true
    · simp only [stripZerosAux, hg, if_true] at h
      exact List.mem_cons_of_mem _ (ih _ _ h)
    · simp only [stripZerosAux, hg, Bool.false_eq_true, if_false] at h
      rcases List.mem_cons.mp h with h1 | h1
      · simp [h1]
      · exact List.mem_cons_of_mem _ (ih _ _ h1)

theorem fixNoDotA_head_digit (l : List Char)
    (h : headIsDigit (fixNoDotA false l) = true) : headIsDigit l = true := by
  match l with
  | [] => exact h
  | [c1] => simpa [fixNoDotA] using h
  | [c1, c2] => simpa [fixNoDotA] using h
  | c1 :: c2 :: c3 :: rest' =>
    by_cases hw : noDotWin c1 c2 c3 = true
    · rw [show fixNoDotA false (c1 :: c2 :: c3 :: rest')
          = 'n' :: 'o' :: ' ' :: fixNoDotA true rest' from by simp [fixNoDotA, hw]] at h
      simp only [headIsDigit] at h
      exact absurd h (by decide)
    · rw [show fixNoDotA false (c1 :: c2 :: c3 :: rest')
          = c1 :: fixNoDotA false (c2 :: c3 :: rest') from by simp [fixNoDotA, hw]] at h
      exact h

theorem bool_eq_false {b : Bool} (h : ¬ b = true) : b = false := by
  cases b
  · rfl
  · exact absurd rfl h

theorem hasZeroMatch_cons (b : Bool) (c : Char) (rest : List Char) :
    hasZeroMatch b (c :: rest)
      = ((b && c == '0' && headIsDigit rest) || hasZeroMatch (!(isWordChar c)) rest) :=
  rfl

theorem fixNoDotA_zeromatch : ∀ (skip : Bool) (l : List Char) (b : Bool),
    (skip = true → b = true) → hasZeroMatch b l = false →
    hasZeroMatch b (fixNoDotA skip l) = false := by
  intro skip l
  induction skip, l using fixNoDotA.induct with
  | case1 skip => intro b _ _; simp [fixNoDotA, hasZeroMatch]
  | case2 skip c1 c2 c3 rest' hws ih =>
    intro b hsb h
    obtain ⟨hskip, hc1⟩ := Bool.and_eq_true_iff.mp hws
    have hb : b = true := hsb hskip
    subst hb
    rw [show fixNoDotA skip (c1 :: c2 :: c3 :: rest')
        = fixNoDotA true (c2 :: c3 :: rest') from by
          rw [hskip]; simp [fixNoDotA, hc1]]
    have hw1 : isWordChar c1 = false := isJsSpace_not_word c1 hc1
    rw [hasZeroMatch_cons, Bool.or_eq_false_iff] at h
    have h2 := h.2
    rw [hw1, Bool.not_false] at h2
    exact ih true (fun _ => rfl) h2
  | case3 skip c1 c2 c3 rest' hns hwin ih =>
    intro b hsb h
    have hns' : (skip && isJsSpace c1) = false := bool_eq_false hns
    rw [show fixNoDotA skip (c1 :: c2 :: c3 :: rest')
        = 'n' :: 'o' :: ' ' :: fixNoDotA true rest' from by
          simp [fixNoDotA, hns', hwin]]
    have hc3 : c3 = '.' := by
      have := (Bool.and_eq_true_iff.mp hwin).2
      exact eq_of_beq this
    have hdot : isWordChar '.' = false := by decide
    have htail : hasZeroMatch true rest' = false := by
      rw [hasZeroMatch_cons, Bool.or_eq_false_iff] at h
      have ha := h.2
      rw [hasZeroMatch_cons, Bool.or_eq_false_iff] at ha
      have hb2 := ha.2
      rw [hasZeroMatch_cons, Bool.or_eq_false_iff] at hb2
      have hc := hb2.2
      rw [hc3, hdot, Bool.not_false] at hc
      exact hc
    have e1 : ('n' == '0') = false := by decide
    have e2 : ('o' == '0') = false := by decide
    have e3 : (' ' == '0') = false := by decide
    have w1 : isWordChar 'n' = true := by decide
    have w2 : isWordChar 'o' = true := by decide
    have w3 : isWordChar ' ' = false := by decide
    rw [hasZeroMatch_cons, hasZeroMatch_cons, hasZeroMatch_cons]
    simp only [e1, e2, e3, w1, w2, w3, Bool.and_false, Bool.false_and,
      Bool.not_true, Bool.not_false, Bool.false_or]
    exact ih true (fun _ => rfl) htail
  | case4 skip c1 c2 c3 rest' hns hnwin ih =>
    intro b hsb h
    have hns' : (skip && isJsSpace c1) = false := bool_eq_false hns
    have hnwin' : noDotWin c1 c2 c3 = false := bool_eq_false hnwin
    rw [show fixNoDotA skip (c1 :: c2 :: c3 :: rest')
        = c1 :: fixNoDotA false (c2 :: c3 :: rest') from by
          simp [fixNoDotA, hns', hnwin']]
    rw [hasZeroMatch_cons, Bool.or_eq_false_iff] at h
    obtain ⟨h1, h2⟩ := h
    rw [hasZeroMatch_cons, Bool.or_eq_false_iff]
    refine ⟨?_, ?_⟩
    · by_cases hbz : (b && (c1 == '0')) = true
      · have hcd : headIsDigit (c2 :: c3 :: rest') = false := by
          cases hx : headIsDigit (c2 :: c3 :: rest')
          · rfl
          · rw [hbz, hx] at h1; simp at h1
        have hfd : headIsDigit (fixNoDotA false (c2 :: c3 :: rest')) = false := by
          cases hy : headIsDigit (fixNoDotA false (c2 :: c3 :: rest'))
          · rfl
          · rw [fixNoDotA_head_digit _ hy] at hcd; simp at hcd
        rw [hbz, hfd]
        rfl
      · rw [bool_eq_false hbz]
        rfl
    · exact ih (!(isWordChar c1)) (fun hx => absurd hx (by decide)) h2
  | case5 skip c1 rest hshape hws ih =>
    intro b hsb h
    obtain ⟨hskip, hc1⟩ := Bool.and_eq_true_iff.mp hws
    have hb : b = true := hsb hskip
    subst hb
    have hw1 : isWordChar c1 = false := isJsSpace_not_word c1 hc1
    have hstep : fixNoDotA skip (c1 :: rest) = fixNoDotA true rest := by
      match rest, hshape with
      | [], _ => rw [hskip]; simp [fixNoDotA, hc1]
      | [c2], _ => rw [hskip]; simp [fixNoDotA, hc1]
      | c2 :: c3 :: rest', hsh => exact absurd rfl (fun h => hsh c2 c3 rest' h)
    rw [hstep]
    rw [hasZeroMatch_cons, Bool.or_eq_false_iff] at h
    have h2 := h.2
    rw [hw1, Bool.not_false] at h2
    exact ih true (fun _ => rfl) h2
  | case6 skip c1 rest hshape hns =>
    intro b hsb h
    have hns' : (skip && isJsSpace c1) = false := bool_eq_false hns
    have hstep : fixNoDotA skip (c1 :: rest) = c1 :: rest := by
      match rest, hshape with
      | [], _ => simp [fixNoDotA, hns']
      | [c2], _ => simp [fixNoDotA, hns']
      | c2 :: c3 :: rest', hsh => exact absurd rfl (fun h => hsh c2 c3 rest' h)
    rw [hstep]
    exact h

theorem collapseWsA_head_digit (l : List Char)
    (h : headIsDigit (collapseWsA false l) = true) : headIsDigit l = true := by
  match l with
  | [] => exact h
  | c :: rest =>
    by_cases hc : isJsSpace c = true
    · rw [show collapseWsA false (c :: rest) = ' ' :: collapseWsA true rest from by
        simp [collapseWsA, hc]] at h
      simp only [headIsDigit] at h
      exact absurd h (by decide)
    · rw [show collapseWsA false (c :: rest) = c :: collapseWsA false rest from by
        simp [collapseWsA, hc]] at h
      exact h

theorem collapseWsA_zeromatch (l : List Char) : ∀ (inWs b : Bool),
    (inWs = true → b = true) → hasZeroMatch b l = false →
    hasZeroMatch b (collapseWsA inWs l) = false := by
  induction l with
  | nil => intro inWs b _ _; cases inWs <;> simp [collapseWsA, hasZeroMatch]
  | cons c rest ih =>
    intro inWs b hib h
    rw [hasZeroMatch_cons, Bool.or_eq_false_iff] at h
    obtain ⟨h1, h2⟩ := h
    by_cases hc : isJsSpace c = true
    · have hw : isWordChar c = false := isJsSpace_not_word c hc
      rw [hw, Bool.not_false] at h2
      by_cases hiw : inWs = true
      · have hb : b = true := hib hiw
        subst hb
        rw [hiw]
        rw [show collapseWsA true (c :: rest) = collapseWsA true rest from by
          simp [collapseWsA, hc]]
        exact ih true true (fun _ => rfl) h2
      · rw [bool_eq_false hiw]
        rw [show collapseWsA false (c :: rest) = ' ' :: collapseWsA true rest from by
          simp [collapseWsA, hc]]
        rw [hasZeroMatch_cons, Bool.or_eq_false_iff]
        refine ⟨by simp, ?_⟩
        have hsw : isWordChar ' ' = false := by decide
        rw [hsw, Bool.not_false]
        exact ih true true (fun _ => rfl) h2
    · rw [show collapseWsA inWs (c :: rest) = c :: collapseWsA false rest from by
        cases inWs <;> simp [collapseWsA, hc]]
      rw [hasZeroMatch_cons, Bool.or_eq_false_iff]
      refine ⟨?_, ih false _ (fun hx => absurd hx (by decide)) h2⟩
      by_cases hbz : (b && (c == '0')) = true
      · have hcd : headIsDigit rest = false := by
          cases hx : headIsDigit rest
          · rfl
          · rw [hbz, hx] at h1; simp at h1
        have hfd : headIsDigit (collapseWsA false rest) = false := by
          cases hy : headIsDigit (collapseWsA false rest)
          · rfl
          · rw [collapseWsA_head_digit _ hy] at hcd; simp at hcd
        rw [hbz, hfd]
        rfl
      · rw [bool_eq_false hbz]
        rfl

theorem dropWhile_zeromatch (l : List Char)
    (h : hasZeroMatch true l = false) :
    hasZeroMatch true (l.dropWhile isJsSpace) = false := by
  induction l with
  | nil => simpa using h
  | cons c rest ih =>
    by_cases hc : isJsSpace c = true
    · rw [List.dropWhile_cons_of_pos hc]
      rw [hasZeroMatch_cons, Bool.or_eq_false_iff] at h
      have h2 := h.2
      rw [isJsSpace_not_word c hc, Bool.not_false] at h2
      exact ih h2
    · rw [List.dropWhile_cons_of_neg (by simpa using hc)]
      exact h

theorem append_zeromatch (l w : List Char) : ∀ b,
    hasZeroMatch b (l ++ w) = false → hasZeroMatch b l = false := by
  induction l with
  | nil => intro b _; rfl
  | cons c rest ih =>
    intro b h
    rw [List.cons_append, hasZeroMatch_cons, Bool.or_eq_false_iff] at h
    obtain ⟨h1, h2⟩ := h
    rw [hasZeroMatch_cons, Bool.or_eq_false_iff]
    refine ⟨?_, ih _ h2⟩
    cases rest with
    | nil => simp [headIsDigit]
    | cons d rest' => exact h1

/-- The `/no\./` window test at the head of a list (the `\s*` part never
affects whether some window exists, since the replacement inserts the
canonical `"no "`). -/
def headWin (a : Char) : List Char → Bool
  | b :: c :: _ => noDotWin a b c
  | _ => false

/-- Whether some position of the list still matches `/no\./i`. -/
def hasNoDot : List Char → Bool
  | [] => false
  | c :: rest => headWin c rest || hasNoDot rest

theorem hasNoDot_cons (c : Char) (rest : List Char) :
    hasNoDot (c :: rest) = (headWin c rest || hasNoDot rest) := rfl

theorem noDotWin_not_n (a b c : Char) (h : (a.toLower == 'n') = false) :
    noDotWin a b c = false := by
  simp [noDotWin, h]

theorem noDotWin_not_o (a b c : Char) (h : (b.toLower == 'o') = false) :
    noDotWin a b c = false := by
  simp [noDotWin, h]

theorem noDotWin_not_dot (a b c : Char) (h : (c == '.') = false) :
    noDotWin a b c = false := by
  simp [noDotWin, h]

theorem headWin_not_n (a : Char) (h : (a.toLower == 'n') = false) :
    ∀ l, headWin a l = false := by
  intro l
  match l with
  | [] => rfl
  | [b] => rfl
  | b :: c :: t => exact noDotWin_not_n a b c h

theorem fixNoDotA_fixed : ∀ (skip : Bool) (l : List Char), skip = false →
    hasNoDot l = false → fixNoDotA skip l = l := by
  intro skip l
  induction skip, l using fixNoDotA.induct with
  | case1 skip => intro _ _; rfl
  | case2 skip c1 c2 c3 rest' hws ih =>
    intro hsk _
    rw [hsk] at hws
    simp at hws
  | case3 skip c1 c2 c3 rest' hns hwin ih =>
    intro hsk h
    exfalso
    have : hasNoDot (c1 :: c2 :: c3 :: rest') = true := by
      simp only [hasNoDot, headWin, hwin, Bool.true_or]
    rw [h] at this
    exact absurd this (by simp)
  | case4 skip c1 c2 c3 rest' hns hnwin ih =>
    intro hsk h
    have hns' : (skip && isJsSpace c1) = false := bool_eq_false hns
    have hnwin' : noDotWin c1 c2 c3 = false := bool_eq_false hnwin
    rw [show fixNoDotA skip (c1 :: c2 :: c3 :: rest')
        = c1 :: fixNoDotA false (c2 :: c3 :: rest') from by
          simp [fixNoDotA, hns', hnwin']]
    rw [hasNoDot_cons, Bool.or_eq_false_iff] at h
    rw [ih rfl h.2]
  | case5 skip c1 rest hshape hws ih =>
    intro hsk _
    rw [hsk] at hws
    simp at hws
  | case6 skip c1 rest hshape hns =>
    intro hsk _
    have hns' : (skip && isJsSpace c1) = false := bool_eq_false hns
    match rest, hshape with
    | [], _ => simp [fixNoDotA, hns']
    | [c2], _ => simp [fixNoDotA, hns']
    | c2 :: c3 :: rest', hsh => exact absurd rfl (fun h => hsh c2 c3 rest' h)

theorem fixNoDotA_noNoDot : ∀ (skip : Bool) (l : List Char),
    hasNoDot (fixNoDotA skip l) = false := by
  intro skip l
  induction skip, l using fixNoDotA.induct with
  | case1 skip => rfl
  | case2 skip c1 c2 c3 rest' hws ih =>
    obtain ⟨hskip, hc1⟩ := Bool.and_eq_true_iff.mp hws
    rw [show fixNoDotA skip (c1 :: c2 :: c3 :: rest')
        = fixNoDotA true (c2 :: c3 :: rest') from by
          rw [hskip]; simp [fixNoDotA, hc1]]
    exact ih
  | case3 skip c1 c2 c3 rest' hns hwin ih =>
    have hns' : (skip && isJsSpace c1) = false := bool_eq_false hns
    rw [show fixNoDotA skip (c1 :: c2 :: c3 :: rest')
        = 'n' :: 'o' :: ' ' :: fixNoDotA true rest' from by
          simp [fixNoDotA, hns', hwin]]
    simp only [hasNoDot, Bool.or_eq_false_iff]
    refine ⟨noDotWin_not_dot 'n' 'o' ' ' (by decide), ?_, ?_, ih⟩
    · exact headWin_not_n 'o' (by decide) _
    · exact headWin_not_n ' ' (by decide) _
  | case4 skip c1 c2 c3 rest' hns hnwin ih =>
    have hns' : (skip && isJsSpace c1) = false := bool_eq_false hns
    have hnwin' : noDotWin c1 c2 c3 = false := bool_eq_false hnwin
    rw [show fixNoDotA skip (c1 :: c2 :: c3 :: rest')
        = c1 :: fixNoDotA false (c2 :: c3 :: rest') from by
          simp [fixNoDotA, hns', hnwin']]
    simp only [hasNoDot, Bool.or_eq_false_iff]
    refine ⟨?_, ih⟩
    match rest' with
    | [] =>
      rw [show fixNoDotA false (c2 :: c3 :: ([] : List Char)) = [c2, c3] from by
        simp [fixNoDotA]]
      exact hnwin'
    | r1 :: rest'' =>
      by_cases hw2 : noDotWin c2 c3 r1 = true
      · rw [show fixNoDotA false (c2 :: c3 :: r1 :: rest'')
            = 'n' :: 'o' :: ' ' :: fixNoDotA true rest'' from by
              simp [fixNoDotA, hw2]]
        exact noDotWin_not_dot c1 'n' 'o' (by decide)
      · have hw2' : noDotWin c2 c3 r1 = false := bool_eq_false hw2
        rw [show fixNoDotA false (c2 :: c3 :: r1 :: rest'')
            = c2 :: fixNoDotA false (c3 :: r1 :: rest'') from by
              simp [fixNoDotA, hw2']]
        match rest'' with
        | [] =>
          rw [show fixNoDotA false (c3 :: r1 :: ([] : List Char)) = [c3, r1] from by
            simp [fixNoDotA]]
          exact hnwin'
        | r2 :: rest₃ =>
          by_cases hw3 : noDotWin c3 r1 r2 = true
          · rw [show fixNoDotA false (c3 :: r1 :: r2 :: rest₃)
                = 'n' :: 'o' :: ' ' :: fixNoDotA true rest₃ from by
                  simp [fixNoDotA, hw3]]
            exact noDotWin_not_dot c1 c2 'n' (by decide)
          · have hw3' : noDotWin c3 r1 r2 = false := bool_eq_false hw3
            rw [show fixNoDotA false (c3 :: r1 :: r2 :: rest₃)
                = c3 :: fixNoDotA false (r1 :: r2 :: rest₃) from by
                  simp [fixNoDotA, hw3']]
            exact hnwin'
  | case5 skip c1 rest hshape hws ih =>
    obtain ⟨hskip, hc1⟩ := Bool.and_eq_true_iff.mp hws
    have hstep : fixNoDotA skip (c1 :: rest) = fixNoDotA true rest := by
      match rest, hshape with
      | [], _ => rw [hskip]; simp [fixNoDotA, hc1]
      | [c2], _ => rw [hskip]; simp [fixNoDotA, hc1]
      | c2 :: c3 :: rest', hsh => exact absurd rfl (fun h => hsh c2 c3 rest' h)
    rw [hstep]
    exact ih
  | case6 skip c1 rest hshape hns =>
    have hns' : (skip && isJsSpace c1) = false := bool_eq_false hns
    match rest, hshape with
    | [], _ =>
      rw [show fixNoDotA skip [c1] = [c1] from by simp [fixNoDotA, hns']]
      rfl
    | [c2], _ =>
      rw [show fixNoDotA skip [c1, c2] = [c1, c2] from by simp [fixNoDotA, hns']]
      rfl
    | c2 :: c3 :: rest', hsh => exact absurd rfl (fun h => hsh c2 c3 rest' h)

theorem collapseWsA_noNoDot (l : List Char) : ∀ (inWs : Bool),
    hasNoDot l = false → hasNoDot (collapseWsA inWs l) = false := by
  induction l with
  | nil => intro inWs _; cases inWs <;> rfl
  | cons c rest ih =>
    intro inWs h
    rw [hasNoDot_cons, Bool.or_eq_false_iff] at h
    obtain ⟨h1, h2⟩ := h
    by_cases hc : isJsSpace c = true
    · by_cases hiw : inWs = true
      · rw [hiw]
        rw [show collapseWsA true (c :: rest) = collapseWsA true rest from by
          simp [collapseWsA, hc]]
        exact ih true h2
      · rw [bool_eq_false hiw]
        rw [show collapseWsA false (c :: rest) = ' ' :: collapseWsA true rest from by
          simp [collapseWsA, hc]]
        rw [hasNoDot_cons, Bool.or_eq_false_iff]
        exact ⟨headWin_not_n ' ' (by decide) _, ih true h2⟩
    · rw [show collapseWsA inWs (c :: rest) = c :: collapseWsA false rest from by
        cases inWs <;> simp [collapseWsA, hc]]
      rw [hasNoDot_cons, Bool.or_eq_false_iff]
      refine ⟨?_, ih false h2⟩
      match rest, h1 with
      | [], _ => rfl
      | d :: rest2, h1 =>
        by_cases hd : isJsSpace d = true
        · rw [show collapseWsA false (d :: rest2) = ' ' :: collapseWsA true rest2 from by
            simp [collapseWsA, hd]]
          match collapseWsA true rest2 with
          | [] => rfl
          | y :: t => exact noDotWin_not_o c ' ' y (by decide)
        · rw [show collapseWsA false (d :: rest2) = d :: collapseWsA false rest2 from by
            simp [collapseWsA, hd]]
          match rest2, h1 with
          | [], _ =>
            rw [show collapseWsA false ([] : List Char) = [] from rfl]
            rfl
          | e :: rest3, h1 =>
            by_cases he : isJsSpace e = true
            · rw [show collapseWsA false (e :: rest3) = ' ' :: collapseWsA true rest3 from by
                simp [collapseWsA, he]]
              exact noDotWin_not_dot c d ' ' (by decide)
            · rw [show collapseWsA false (e :: rest3) = e :: collapseWsA false rest3 from by
                simp [collapseWsA, he]]
              exact h1

theorem hasNoDot_append_right (m l : List Char)
    (h : hasNoDot (m ++ l) = false) : hasNoDot l = false := by
  induction m with
  | nil => exact h
  | cons a m' ih =>
    rw [List.cons_append, hasNoDot_cons, Bool.or_eq_false_iff] at h
    exact ih h.2

theorem hasNoDot_append_left (l w : List Char)
    (h : hasNoDot (l ++ w) = false) : hasNoDot l = false := by
  induction l with
  | nil => rfl
  | cons c t ih =>
    rw [List.cons_append, hasNoDot_cons, Bool.or_eq_false_iff] at h
    obtain ⟨h1, h2⟩ := h
    rw [hasNoDot_cons, Bool.or_eq_false_iff]
    refine ⟨?_, ih h2⟩
    match t, h1 with
    | [], _ => rfl
    | [b], _ => rfl
    | b :: c2 :: t', h1 => exact h1

/-- Adjacent characters are never both whitespace. -/
def noWsPair (a b : Char) : Prop := ¬(isJsSpace a = true ∧ isJsSpace b = true)

theorem collapseWsA_head_notWs (l : List Char) :
    ∀ d, (collapseWsA true l).head? = some d → isJsSpace d = false := by
  induction l with
  | nil => intro d h; simp [collapseWsA] at h
  | cons c rest ih =>
    intro d h
    by_cases hc : isJsSpace c = true
    · rw [show collapseWsA true (c :: rest) = collapseWsA true rest from by
        simp [collapseWsA, hc]] at h
      exact ih d h
    · rw [show collapseWsA true (c :: rest) = c :: collapseWsA false rest from by
        simp [collapseWsA, hc]] at h
      simp only [List.head?_cons, Option.some_inj] at h
      rw [← h]
      exact bool_eq_false hc

theorem collapseWsA_space_only (l : List Char) :
    ∀ (inWs : Bool) (c : Char), c ∈ collapseWsA inWs l → isJsSpace c = true → c = ' ' := by
  induction l with
  | nil => intro inWs c h; cases inWs <;> simp [collapseWsA] at h
  | cons a rest ih =>
    intro inWs c h hc
    by_cases ha : isJsSpace a = true
    · by_cases hiw : inWs = true
      · rw [hiw] at h
        rw [show collapseWsA true (a :: rest) = collapseWsA true rest from by
          simp [collapseWsA, ha]] at h
        exact ih true c h hc
      · rw [bool_eq_false hiw] at h
        rw [show collapseWsA false (a :: rest) = ' ' :: collapseWsA true rest from by
          simp [collapseWsA, ha]] at h
        rcases List.mem_cons.mp h with h1 | h1
        · exact h1
        · exact ih true c h1 hc
    · rw [show collapseWsA inWs (a :: rest) = a :: collapseWsA false rest from by
        cases inWs <;> simp [collapseWsA, ha]] at h
      rcases List.mem_cons.mp h with h1 | h1
      · rw [h1] at hc; exact absurd hc (by simp [ha])
      · exact ih false c h1 hc

theorem collapseWsA_chain (l : List Char) :
    ∀ (inWs : Bool), List.Chain' noWsPair (collapseWsA inWs l) := by
  induction l with
  | nil => intro inWs; cases inWs <;> simp [collapseWsA]
  | cons c rest ih =>
    intro inWs
    by_cases hc : isJsSpace c = true
    · by_cases hiw : inWs = true
      · rw [hiw]
        rw [show collapseWsA true (c :: rest) = collapseWsA true rest from by
          simp [collapseWsA, hc]]
        exact ih true
      · rw [bool_eq_false hiw]
        rw [show collapseWsA false (c :: rest) = ' ' :: collapseWsA true rest from by
          simp [collapseWsA, hc]]
        rw [List.chain'_cons']
        refine ⟨?_, ih true⟩
        intro y hy
        intro ⟨_, hy2⟩
        rw [collapseWsA_head_notWs rest y hy] at hy2
        exact absurd hy2 (by simp)
    · rw [show collapseWsA inWs (c :: rest) = c :: collapseWsA false rest from by
        cases inWs <;> simp [collapseWsA, hc]]
      rw [List.chain'_cons']
      refine ⟨?_, ih false⟩
      intro y _
      intro ⟨hc2, _⟩
      exact absurd hc2 hc

theorem collapseWsA_skip_eq (l : List Char)
    (h : ∀ d, l.head? = some d → isJsSpace d = false) :
    collapseWsA true l = collapseWsA false l := by
  cases l with
  | nil => rfl
  | cons c rest =>
    have hc : isJsSpace c = false := h c rfl
    simp [collapseWsA, hc]

theorem collapseWsA_fixed (l : List Char)
    (hsp : ∀ c ∈ l, isJsSpace c = true → c = ' ')
    (hch : List.Chain' noWsPair l) :
    collapseWsA false l = l := by
  induction l with
  | nil => rfl
  | cons c rest ih =>
    by_cases hc : isJsSpace c = true
    · rw [show collapseWsA false (c :: rest) = ' ' :: collapseWsA true rest from by
        simp [collapseWsA, hc]]
      have hcs : c = ' ' := hsp c (List.mem_cons_self c rest) hc
      have hhead : ∀ d, rest.head? = some d → isJsSpace d = false := by
        intro d hd
        cases rest with
        | nil => simp at hd
        | cons e rest' =>
          simp only [List.head?_cons, Option.some_inj] at hd
          rw [List.chain'_cons'] at hch
          have hr := hch.1 e rfl
          rw [hd] at hr
          by_cases hde : isJsSpace d = true
          · exact absurd ⟨hc, hde⟩ hr
          · exact bool_eq_false hde
      rw [collapseWsA_skip_eq rest hhead]
      rw [ih (fun x hx => hsp x (List.mem_cons_of_mem _ hx)) (List.Chain'.tail hch)]
      rw [hcs]
    · rw [show collapseWsA false (c :: rest) = c :: collapseWsA false rest from by
        simp [collapseWsA, hc]]
      rw [ih (fun x hx => hsp x (List.mem_cons_of_mem _ hx)) (List.Chain'.tail hch)]

theorem collapseWsA_mem (l : List Char) :
    ∀ (inWs : Bool) (c : Char), c ∈ collapseWsA inWs l → c ∈ l ∨ c = ' ' := by
  induction l with
  | nil => intro inWs c h; cases inWs <;> simp [collapseWsA] at h
  | cons a rest ih =>
    intro inWs c h
    by_cases ha : isJsSpace a = true
    · by_cases hiw : inWs = true
      · rw [hiw] at h
        rw [show collapseWsA true (a :: rest) = collapseWsA true rest from by
          simp [collapseWsA, ha]] at h
        rcases ih true c h with h1 | h1
        · exact Or.inl (List.mem_cons_of_mem _ h1)
        · exact Or.inr h1
      · rw [bool_eq_false hiw] at h
        rw [show collapseWsA false (a :: rest) = ' ' :: collapseWsA true rest from by
          simp [collapseWsA, ha]] at h
        rcases List.mem_cons.mp h with h1 | h1
        · exact Or.inr h1
        · rcases ih true c h1 with h2 | h2
          · exact Or.inl (List.mem_cons_of_mem _ h2)
          · exact Or.inr h2
    · rw [show collapseWsA inWs (a :: rest) = a :: collapseWsA false rest from by
        cases inWs <;> simp [collapseWsA, ha]] at h
      rcases List.mem_cons.mp h with h1 | h1
      · exact Or.inl (by simp [h1])
      · rcases ih false c h1 with h2 | h2
        · exact Or.inl (List.mem_cons_of_mem _ h2)
        · exact Or.inr h2

theorem fixNoDotA_mem : ∀ (skip : Bool) (l : List Char) (c : Char),
    c ∈ fixNoDotA skip l → c ∈ l ∨ c = 'n' ∨ c = 'o' ∨ c = ' ' := by
  intro skip l
  induction skip, l using fixNoDotA.induct with
  | case1 skip => intro c h; simp [fixNoDotA] at h
  | case2 skip c1 c2 c3 rest' hws ih =>
    intro c h
    obtain ⟨hskip, hc1⟩ := Bool.and_eq_true_iff.mp hws
    rw [show fixNoDotA skip (c1 :: c2 :: c3 :: rest')
        = fixNoDotA true (c2 :: c3 :: rest') from by
          rw [hskip]; simp [fixNoDotA, hc1]] at h
    rcases ih c h with h1 | h1
    · exact Or.inl (List.mem_cons_of_mem _ h1)
    · exact Or.inr h1
  | case3 skip c1 c2 c3 rest' hns hwin ih =>
    intro c h
    have hns' : (skip && isJsSpace c1) = false := bool_eq_false hns
    rw [show fixNoDotA skip (c1 :: c2 :: c3 :: rest')
        = 'n' :: 'o' :: ' ' :: fixNoDotA true rest' from by
          simp [fixNoDotA, hns', hwin]] at h
    rcases List.mem_cons.mp h with h1 | h1
    · exact Or.inr (Or.inl h1)
    rcases List.mem_cons.mp h1 with h2 | h2
    · exact Or.inr (Or.inr (Or.inl h2))
    rcases List.mem_cons.mp h2 with h3 | h3
    · exact Or.inr (Or.inr (Or.inr h3))
    rcases ih c h3 with h4 | h4
    · exact Or.inl (by simp [h4])
    · exact Or.inr h4
  | case4 skip c1 c2 c3 rest' hns hnwin ih =>
    intro c h
    have hns' : (skip && isJsSpace c1) = false := bool_eq_false hns
    have hnwin' : noDotWin c1 c2 c3 = false := bool_eq_false hnwin
    rw [show fixNoDotA skip (c1 :: c2 :: c3 :: rest')
        = c1 :: fixNoDotA false (c2 :: c3 :: rest') from by
          simp [fixNoDotA, hns', hnwin']] at h
    rcases List.mem_cons.mp h with h1 | h1
    · exact Or.inl (by simp [h1])
    rcases ih c h1 with h2 | h2
    · exact Or.inl (List.mem_cons_of_mem _ h2)
    · exact Or.inr h2
  | case5 skip c1 rest hshape hws ih =>
    intro c h
    obtain ⟨hskip, hc1⟩ := Bool.and_eq_true_iff.mp hws
    have hstep : fixNoDotA skip (c1 :: rest) = fixNoDotA true rest := by
      match rest, hshape with
      | [], _ => rw [hskip]; simp [fixNoDotA, hc1]
      | [c2], _ => rw [hskip]; simp [fixNoDotA, hc1]
      | c2 :: c3 :: rest', hsh => exact absurd rfl (fun h => hsh c2 c3 rest' h)
    rw [hstep] at h
    rcases ih c h with h1 | h1
    · exact Or.inl (List.mem_cons_of_mem _ h1)
    · exact Or.inr h1
  | case6 skip c1 rest hshape hns =>
    intro c h
    have hns' : (skip && isJsSpace c1) = false := bool_eq_false hns
    have hstep : fixNoDotA skip (c1 :: rest) = c1 :: rest := by
      match rest, hshape with
      | [], _ => simp [fixNoDotA, hns']
      | [c2], _ => simp [fixNoDotA, hns']
      | c2 :: c3 :: rest', hsh => exact absurd rfl (fun h => hsh c2 c3 rest' h)
    rw [hstep] at h
    exact Or.inl h

theorem dropWhile_head_not (p : Char → Bool) (l : List Char) :
    ∀ d, (l.dropWhile p).head? = some d → p d = false := by
  induction l with
  | nil => intro d h; simp at h
  | cons c rest ih =>
    intro d h
    by_cases hc : p c = true
    · rw [List.dropWhile_cons_of_pos hc] at h
      exact ih d h
    · rw [List.dropWhile_cons_of_neg (by simpa using hc)] at h
      simp only [List.head?_cons, Option.some_inj] at h
      rw [← h]
      exact bool_eq_false hc

theorem dropWhile_id_of_head (p : Char → Bool) (l : List Char)
    (h : ∀ d, l.head? = some d → p d = false) : l.dropWhile p = l := by
  cases l with
  | nil => rfl
  | cons c rest =>
    have := h c rfl
    rw [List.dropWhile_cons_of_neg (by simp [this])]

theorem jsTrim_prefix_decomp (l : List Char) :
    ∃ w, l.dropWhile isJsSpace = jsTrim l ++ w := by
  have h1 : (l.dropWhile isJsSpace).reverse.dropWhile isJsSpace
      <:+ (l.dropWhile isJsSpace).reverse := List.dropWhile_suffix _
  have h3 := (List.reverse_prefix).mpr h1
  rw [List.reverse_reverse] at h3
  obtain ⟨w, hw⟩ := h3
  exact ⟨w, hw.symm⟩

theorem mem_jsTrim (l : List Char) (c : Char) (h : c ∈ jsTrim l) : c ∈ l := by
  obtain ⟨w, hw⟩ := jsTrim_prefix_decomp l
  have h1 : c ∈ l.dropWhile isJsSpace := by
    rw [hw]
    exact List.mem_append_left _ h
  have h2 : l = l.takeWhile isJsSpace ++ l.dropWhile isJsSpace :=
    (List.takeWhile_append_dropWhile ..).symm
  rw [h2]
  exact List.mem_append_right _ h1

theorem jsTrim_head_notWs (l : List Char) :
    ∀ d, (jsTrim l).head? = some d → isJsSpace d = false := by
  intro d h
  obtain ⟨w, hw⟩ := jsTrim_prefix_decomp l
  cases ht : jsTrim l with
  | nil => rw [ht] at h; simp at h
  | cons a t =>
    rw [ht] at h
    simp only [List.head?_cons, Option.some_inj] at h
    have : (l.dropWhile isJsSpace).head? = some a := by
      rw [hw, ht]
      rfl
    rw [← h]
    exact dropWhile_head_not isJsSpace l a this

theorem jsTrim_last_notWs (l : List Char) :
    ∀ d, (jsTrim l).getLast? = some d → isJsSpace d = false := by
  intro d h
  rw [← List.head?_reverse] at h
  unfold jsTrim at h
  rw [List.reverse_reverse] at h
  exact dropWhile_head_not isJsSpace _ d h

theorem jsTrim_fixed (l : List Char)
    (hh : ∀ d, l.head? = some d → isJsSpace d = false)
    (hl : ∀ d, l.getLast? = some d → isJsSpace d = false) : jsTrim l = l := by
  unfold jsTrim
  rw [dropWhile_id_of_head _ _ hh]
  rw [dropWhile_id_of_head _ _ (fun d hd => hl d (by rwa [List.head?_reverse] at hd))]
  exact List.reverse_reverse l

theorem chain'_of_append_decomp {m l w : List Char}
    (h : List.Chain' noWsPair (m ++ l ++ w)) : List.Chain' noWsPair l := by
  rw [List.chain'_append] at h
  rcases h with ⟨h1, h2, _⟩
  rw [List.chain'_append] at h1
  exact h1.2.1

theorem hasZeroMatch_jsTrim (l : List Char) (h : hasZeroMatch true l = false) :
    hasZeroMatch true (jsTrim l) = false := by
  obtain ⟨w, hw⟩ := jsTrim_prefix_decomp l
  have h1 : hasZeroMatch true (l.dropWhile isJsSpace) = false := dropWhile_zeromatch l h
  rw [hw] at h1
  exact append_zeromatch _ w true h1

theorem hasNoDot_jsTrim (l : List Char) (h : hasNoDot l = false) :
    hasNoDot (jsTrim l) = false := by
  obtain ⟨w, hw⟩ := jsTrim_prefix_decomp l
  have h1 : hasNoDot (l.dropWhile isJsSpace) = false := by
    have h2 : l = l.takeWhile isJsSpace ++ l.dropWhile isJsSpace :=
      (List.takeWhile_append_dropWhile ..).symm
    rw [h2] at h
    exact hasNoDot_append_right _ _ h
  rw [hw] at h1
  exact hasNoDot_append_left _ _ h1

/-- The fully normalized string is a fixed point of the whole pipeline. -/
theorem normalizeTitleL_fixed (t : List Char) :
    normalizeTitleL (normalizeTitleL t) = normalizeTitleL t := by
  by_cases ht : t.isEmpty
  · have h1 : normalizeTitleL t = [] := by
      simp only [normalizeTitleL]
      rw [if_pos ht]
    rw [h1]
    rfl
  · have h1 : normalizeTitleL t
        = jsTrim (collapseWsA false (fixNoDotA false
            (stripZerosAux true (t.map Char.toLower)))) := by
      simp only [normalizeTitleL, collapseWs, fixNoDot]
      rw [if_neg ht]
    rw [h1]
    set L := t.map Char.toLower with hL
    set S := stripZerosAux true L with hS
    set F := fixNoDotA false S with hF
    set C := collapseWsA false F with hC
    set R := jsTrim C with hR
    by_cases hRe : R.isEmpty
    · simp only [normalizeTitleL]
      rw [if_pos hRe]
      rw [List.isEmpty_iff] at hRe
      exact hRe.symm
    · simp only [normalizeTitleL, collapseWs, fixNoDot]
      rw [if_neg hRe]
      have hlow : ∀ c ∈ R, c.toLower = c := by
        intro c hc
        have hc2 : c ∈ C := mem_jsTrim C c hc
        rcases collapseWsA_mem F false c hc2 with h1 | h1
        · rcases fixNoDotA_mem false S c h1 with h2 | h2 | h2 | h2
          · have h3 : c ∈ L := stripZerosAux_mem L true c h2
            obtain ⟨a, _, ha⟩ := List.mem_map.mp h3
            rw [← ha]
            exact toLower_idem a
          · rw [h2]; decide
          · rw [h2]; decide
          · rw [h2]; decide
        · rw [h1]; decide
      have hzm : hasZeroMatch true R = false := by
        apply hasZeroMatch_jsTrim
        apply collapseWsA_zeromatch F false true (fun hx => absurd hx (by decide))
        apply fixNoDotA_zeromatch false S true (fun hx => absurd hx (by decide))
        exact stripZerosAux_nomatch L true
      have hnd : hasNoDot R = false := by
        apply hasNoDot_jsTrim
        apply collapseWsA_noNoDot F false
        exact fixNoDotA_noNoDot false S
      have hsp : ∀ c ∈ R, isJsSpace c = true → c = ' ' := by
        intro c hc hws
        exact collapseWsA_space_only F false c (mem_jsTrim C c hc) hws
      have hch : List.Chain' noWsPair R := by
        obtain ⟨w, hw⟩ := jsTrim_prefix_decomp C
        have hdecomp : C = C.takeWhile isJsSpace ++ R ++ w := by
          rw [List.append_assoc, ← hw]
          exact (List.takeWhile_append_dropWhile ..).symm
        have := collapseWsA_chain F false
        rw [← hC] at this
        rw [hdecomp] at this
        exact chain'_of_append_decomp this
      rw [map_toLower_fixed R hlow]
      rw [stripZerosAux_fixed R true hzm]
      rw [fixNoDotA_fixed false R rfl hnd]
      rw [collapseWsA_fixed R hsp hch]
      rw [jsTrim_fixed R (jsTrim_head_notWs C) (jsTrim_last_notWs C)]

/-- C10: `normalizeTitle` is idempotent, so reference-to-node matching through
the normalized-title table does not depend on how many times normalization is
applied to a key. -/
theorem C10_normalizeTitle_idempotent (s : String) :
    normalizeTitle (normalizeTitle s) = normalizeTitle s :=
  congrArg String.mk (normalizeTitleL_fixed s.data)

end FypScraper
